import Mathlib

/-!
# Verification of the W4RP-BLE rule-engine core

A shallow embedding, in Lean 4, of the core of the W4RP-BLE firmware
(`src/core/Protocol.cpp`, `src/core/Engine.cpp`, `src/drivers/ESP32OTAService.cpp`,
`W4RP.cpp`) together with theorems settling the frozen specification claims.

Modelling conventions:
* Machine integers are `Nat` with explicit reductions modulo `2^32` where the
  C++ relies on `uint32_t` wrap-around (`u32sub` models `uint32_t` subtraction).
* Byte buffers are `List Nat`; every read reduces the element modulo 256,
  matching `uint8_t` access.
* `float` quantities (signal values, factors, offsets, condition bounds) are
  modelled as exact rationals `ℚ`.  IEEE-754 binary32 wire values are decoded
  exactly by `f32FromBits` (every finite float is a rational; the Inf/NaN
  encodings, which no claim touches, are mapped to 0).
* Arduino `String`s are byte lists.
* Fallible parsing returns `Except ParseErr`, one error constructor per
  distinct diagnostic branch of `Protocol::parseRules`.
-/

namespace W4RP

/- Batteries marks the `Rat` field operations `@[irreducible]`; the concrete
evaluations below need them to reduce. -/
attribute [local semireducible] Rat.mul Rat.add Rat.sub Rat.inv

/-! ## 32-bit arithmetic helpers -/

/-- `2^32`, the modulus of `uint32_t` arithmetic. -/
def U32 : Nat := 4294967296

/-- `uint32_t` subtraction `a - b` (wrap-around), for arbitrary naturals. -/
def u32sub (a b : Nat) : Nat := (a % U32 + (U32 - b % U32)) % U32

/-! ## CRC-32 (model of `esp_crc32_le`, the IEEE/zlib CRC used by
`Protocol::calculateCRC32` and the OTA service) -/

/-- One bit step of the reflected CRC-32: shift right, xor the polynomial
`0xEDB88320` when the dropped bit was set. -/
def crcStepBit (c : Nat) : Nat :=
  if c % 2 = 1 then (c / 2) ^^^ 0xEDB88320 else c / 2

/-- Absorb one byte into the running (pre-complemented) CRC register. -/
def crcByte (c b : Nat) : Nat := crcStepBit^[8] (c ^^^ b % 256)

/-- `esp_crc32_le seed data`: complement the seed, fold the bytes, complement
the result. -/
def crc32_le (seed : Nat) (data : List Nat) : Nat :=
  (data.foldl crcByte (seed % U32 ^^^ 0xFFFFFFFF)) ^^^ 0xFFFFFFFF

/-! ## Byte-buffer readers (packed little-endian structs) -/

/-- Byte `i` of a buffer (0 when out of range), reduced to `uint8_t`. -/
def byteAt (d : List Nat) (i : Nat) : Nat := d.getD i 0 % 256

/-- Little-endian `uint16_t` at byte offset `off`. -/
def readU16 (d : List Nat) (off : Nat) : Nat :=
  byteAt d off + 256 * byteAt d (off + 1)

/-- Little-endian `uint32_t` at byte offset `off`. -/
def readU32 (d : List Nat) (off : Nat) : Nat :=
  byteAt d off + 256 * byteAt d (off + 1) + 65536 * byteAt d (off + 2) +
    16777216 * byteAt d (off + 3)

/-- Exact rational value of an IEEE-754 binary32 bit pattern.  Subnormals are
decoded exactly; the exponent-255 patterns (Inf/NaN), which no parsed ruleset
field relies on in any claim, are mapped to 0. -/
def f32FromBits (b : Nat) : ℚ :=
  let b : Nat := b % U32
  let sign : ℚ := if b / 2 ^ 31 = 1 then -1 else 1
  let expo : Nat := b / 2 ^ 23 % 2 ^ 8
  let mant : Nat := b % 2 ^ 23
  if expo = 0 then sign * (mant : ℚ) / ((2 ^ 149 : Nat) : ℚ)
  else if expo = 255 then 0
  else sign * (((2 ^ 23 + mant) * 2 ^ expo : Nat) : ℚ) / ((2 ^ 150 : Nat) : ℚ)

/-! ## Bit extraction (`extractBits` in `Engine.cpp`) -/

/-- Bit `bitPos` of the 8-byte payload viewed little-endian-within-byte:
bit `bitPos % 8` of byte `(bitPos / 8) % 256`, and 0 when that byte index
is ≥ 8.  This is the loop body of the little-endian branch: `uint8_t
byteIdx = bitPos / 8` truncates the quotient to a byte *before* the
`byteIdx < 8` guard, so a wrapped byte index below 8 passes the guard and
reads the payload. -/
def payloadBit (data : List Nat) (bitPos : Nat) : Nat :=
  if bitPos / 8 % 256 < 8 then byteAt data (bitPos / 8 % 256) / 2 ^ (bitPos % 8) % 2
  else 0

/-- Little-endian branch of `extractBits` after `n` loop iterations:
`result |= bit << i` for `i < n`, with `uint16_t bitPos = start + i`
(wrapping mod 2^16). -/
def extractLE (data : List Nat) (start : Nat) : Nat → Nat
  | 0 => 0
  | n + 1 => extractLE data start n ||| payloadBit data ((start + n) % 65536) <<< n

/-- Big-endian branch of `extractBits` after `n` loop iterations:
`bitPos = start - i` (as a signed int); positions outside `[0, 64)` are
skipped (`continue`, no shift), in-range positions do
`result = (result << 1) | bit`. -/
def extractBE (data : List Nat) (start : Nat) : Nat → Nat
  | 0 => 0
  | n + 1 =>
    if (start : Int) - n < 0 ∨ 64 ≤ (start : Int) - n then extractBE data start n
    else extractBE data start n * 2 + byteAt data ((start - n) / 8) / 2 ^ ((start - n) % 8) % 2

/-- `extractBits(data, start, len, bigEndian)` from `Engine.cpp`. -/
def extractBits (data : List Nat) (start len : Nat) (bigEndian : Bool) : Nat :=
  if len = 0 ∨ 64 < len then 0
  else if bigEndian then extractBE data start len else extractLE data start len

/-- The spec's wording of the big-endian accumulation for claim C6: every
position `start - i` is shifted into the accumulator MSB-first, an
out-of-range position contributing a zero bit (so the result always has
`len` accumulated bit positions).  Stated from the spec, to be compared with
`extractBE`, which instead skips out-of-range positions without shifting. -/
def extractBESpecZeroFill (data : List Nat) (start : Nat) : Nat → Nat
  | 0 => 0
  | n + 1 =>
    extractBESpecZeroFill data start n * 2 +
      (if (start : Int) - n < 0 ∨ 64 ≤ (start : Int) - n then 0
       else byteAt data ((start - n) / 8) / 2 ^ ((start - n) % 8) % 2)

/-- Number of loop iterations of the big-endian branch whose bit position
`start - i`, `i < len`, lies inside `[0, 64)` (the ones that shift a bit in). -/
def beInRangeCount (start len : Nat) : Nat :=
  ((List.range len).filter fun i => decide (i ≤ start ∧ start - i < 64)).length

/-! ## Runtime data model (`Types.h`) -/

/-- Condition comparison operators (`enum class Operation`, codes 0..8). -/
inductive Operation where
  | EQ | NE | GT | GE | LT | LE | WITHIN | OUTSIDE | HOLD
  deriving DecidableEq, Repr, Inhabited

/-- Decode an operation byte; total, callers only use it after the
`opCode <= HOLD` validation. -/
def Operation.ofCode : Nat → Operation
  | 0 => .EQ | 1 => .NE | 2 => .GT | 3 => .GE | 4 => .LT
  | 5 => .LE | 6 => .WITHIN | 7 => .OUTSIDE | _ => .HOLD

/-- Action parameter types (`enum class ParamType`, codes 0..3). -/
inductive ParamType where
  | INT | FLOAT | STRING | BOOL
  deriving DecidableEq, Repr

/-- `RuntimeSignal`: wire definition plus runtime state. -/
structure RuntimeSignal where
  canId : Nat
  startBit : Nat
  bitLength : Nat
  bigEndian : Bool
  isSigned : Bool
  factor : ℚ
  offset : ℚ
  value : ℚ := 0
  lastValue : ℚ := 0
  lastDebugValue : ℚ := -9999999 / 10
  lastUpdateMs : Nat := 0
  everSet : Bool := false
  deriving DecidableEq, Repr, Inhabited

/-- `RuntimeCondition`: wire definition plus HOLD state. -/
structure RuntimeCondition where
  signalIdx : Nat
  operation : Operation
  value1 : ℚ
  value2 : ℚ
  holdMs : Nat := 0
  holdStartMs : Nat := 0
  holdActive : Bool := false
  lastResult : Bool := false
  deriving DecidableEq, Repr, Inhabited

/-- `RuntimeParam`.  The C++ `union { int32_t; float; }` plus the string field
is flattened into three fields; only the one selected by `type` is ever set
by the parser, the others keep their zero initialisation. -/
structure RuntimeParam where
  type : ParamType
  intVal : Int := 0
  floatVal : ℚ := 0
  strVal : List Nat := []
  deriving DecidableEq, Repr

/-- `RuntimeAction`: capability id (an Arduino `String`, modelled as its
bytes) and parameter list. -/
structure RuntimeAction where
  capabilityId : List Nat
  params : List RuntimeParam := []
  deriving DecidableEq, Repr

/-- `RuntimeRule`: wire definition plus trigger/debounce state. -/
structure RuntimeRule where
  conditionMask : Nat
  actionStartIdx : Nat
  actionCount : Nat
  debounceMs : Nat
  cooldownMs : Nat
  lastTriggerMs : Nat := 0
  lastConditionChangeMs : Nat := 0
  lastConditionState : Bool := false
  deriving DecidableEq, Repr

/-! ## Signal decoding (`Engine::decodeSignal`) -/

/-- `Engine::decodeSignal`: extract the raw bit field, sign-extend when
`isSigned` (the `raw |= ~0ULL << bitLength` + `(int64_t)` cast pair, modelled
exactly over ℤ), then apply `factor` and `offset` over exact rationals. -/
def decodeSignal (sig : RuntimeSignal) (data : List Nat) : ℚ :=
  let raw : Nat := extractBits data sig.startBit sig.bitLength sig.bigEndian
  let rawI : Int :=
    if sig.isSigned then
      let raw' : Nat :=
        if 0 < sig.bitLength ∧ sig.bitLength < 64 ∧ raw / 2 ^ (sig.bitLength - 1) % 2 = 1
        then raw + (2 ^ 64 - 2 ^ sig.bitLength) else raw
      if raw' < 2 ^ 63 then (raw' : Int) else (raw' : Int) - ((2 ^ 64 : Nat) : Int)
    else (raw : Int)
  (rawI : ℚ) * sig.factor + sig.offset

/-! ## WBP rules parser (`Protocol::parseRules`)

The C++ returns `bool` and prints one distinguishing diagnostic per failing
check; the model returns `Except ParseErr`, one constructor per diagnostic
branch, in the source's textual order. -/

/-- One constructor per distinct failure branch of `Protocol::parseRules`. -/
inductive ParseErr where
  | shortHeader
  | badMagic
  | unsupportedVersion
  | truncatedBody
  | totalSizeTooSmall
  | crcMismatch
  | badStringTableOffset
  | countsOverflow
  | invalidSignalIdx
  | invalidOperation
  | invalidHoldDuration
  | emptyCapabilityId
  | paramRangeOverflow
  | invalidParamType
  | actionRangeOverflow
  | conditionMaskOutOfRange
  deriving DecidableEq, Repr

/-- Output of a successful parse. -/
structure ParsedTables where
  signals : List RuntimeSignal
  conditions : List RuntimeCondition
  actions : List RuntimeAction
  rules : List RuntimeRule
  deriving DecidableEq, Repr

/-- `WBPRulesHeader` is 24 packed bytes; field accessors at their offsets. -/
def hdrMagic (d : List Nat) : Nat := readU32 d 0

def hdrVersion (d : List Nat) : Nat := byteAt d 4

def hdrFlags (d : List Nat) : Nat := byteAt d 5

def hdrTotalSize (d : List Nat) : Nat := readU16 d 6

def hdrSignalCount (d : List Nat) : Nat := byteAt d 8

def hdrConditionCount (d : List Nat) : Nat := byteAt d 9

def hdrActionCount (d : List Nat) : Nat := byteAt d 10

def hdrRuleCount (d : List Nat) : Nat := byteAt d 11

def hdrActionParamCount (d : List Nat) : Nat := readU16 d 12

def hdrStringTableOffset (d : List Nat) : Nat := readU16 d 16

def hdrCrc32 (d : List Nat) : Nat := readU32 d 20

/-- `WBP_MAGIC_RULES` from `Types.h`. -/
def WBP_MAGIC_RULES : Nat := 0xC0DE5702

/-- `readStringFromTable`: the NUL-terminated byte string at `off`, or the
empty string when `off` is past the table end or no NUL terminator lies
within the table bounds. -/
def readStringFromTable (table : List Nat) (off : Nat) : List Nat :=
  if table.length ≤ off then []
  else
    let rest := table.drop off
    let s := rest.takeWhile fun b => b ≠ 0
    if s.length = rest.length then [] else s

/-- Truncation of a float to `uint32_t` (`static_cast<uint32_t>`), used for
`holdMs`; the parser only applies it to values in `[0, 86400000]`. -/
def ratToU32 (q : ℚ) : Nat := q.floor.toNat

/-- One `WBPSignal` record (16 packed bytes) at byte offset `off`. -/
def parseSignalAt (d : List Nat) (off : Nat) : RuntimeSignal :=
  { canId := readU32 d off
    startBit := readU16 d (off + 4)
    bitLength := byteAt d (off + 6)
    bigEndian := (byteAt d (off + 7)).testBit 0
    isSigned := (byteAt d (off + 7)).testBit 1
    factor := f32FromBits (readU32 d (off + 8))
    offset := f32FromBits (readU32 d (off + 12)) }

/-- The signal table: `signalCount` records from `base`. -/
def parseSignals (d : List Nat) (base count : Nat) : List RuntimeSignal :=
  (List.range count).map fun i => parseSignalAt d (base + 16 * i)

/-- The condition loop of `parseRules`: record `i` of `n` remaining, each a
`WBPCondition` (12 packed bytes), validating the signal index, the operation
code and, for HOLD, the duration range. -/
def parseConditions (d : List Nat) (base sigCount : Nat) :
    Nat → Nat → Except ParseErr (List RuntimeCondition)
  | _, 0 => .ok []
  | i, n + 1 =>
    let off := base + 12 * i
    let signalIdx := byteAt d off
    if sigCount ≤ signalIdx then .error .invalidSignalIdx
    else
      let opCode := byteAt d (off + 1)
      if 8 < opCode then .error .invalidOperation
      else
        let op := Operation.ofCode opCode
        let v1 := f32FromBits (readU32 d (off + 4))
        let v2 := f32FromBits (readU32 d (off + 8))
        if op = .HOLD ∧ (v1 < 0 ∨ 86400000 < v1) then .error .invalidHoldDuration
        else
          match parseConditions d base sigCount (i + 1) n with
          | .error e => .error e
          | .ok rest =>
            .ok ({ signalIdx := signalIdx, operation := op, value1 := v1, value2 := v2,
                   holdMs := if op = .HOLD then ratToU32 v1 else 0 } :: rest)

/-- The parameter loop for one action: `n` parameters starting at array index
`paramStart`, each a `WBPActionParam` (4 packed bytes) at `apBase`. -/
def parseParams (d : List Nat) (apBase : Nat) (stringTable : List Nat) (paramStart : Nat) :
    Nat → Nat → Except ParseErr (List RuntimeParam)
  | _, 0 => .ok []
  | j, n + 1 =>
    let off := apBase + 4 * (paramStart + j)
    let ty := byteAt d off
    if 3 < ty then .error .invalidParamType
    else
      let v := readU16 d (off + 2)
      let param : RuntimeParam :=
        if ty = 0 ∨ ty = 3 then { type := if ty = 0 then .INT else .BOOL, intVal := (v : Int) }
        else if ty = 1 then { type := .FLOAT, floatVal := (v : ℚ) / 100 }
        else { type := .STRING, strVal := readStringFromTable stringTable v }
      match parseParams d apBase stringTable paramStart (j + 1) n with
      | .error e => .error e
      | .ok rest => .ok (param :: rest)

/-- The action loop of `parseRules`: record `i` of `n` remaining, each a
`WBPAction` (8 packed bytes) at `actBase`, validating the capability string
and the parameter slice bounds. -/
def parseActions (d : List Nat) (actBase apBase : Nat) (stringTable : List Nat)
    (apCount : Nat) : Nat → Nat → Except ParseErr (List RuntimeAction)
  | _, 0 => .ok []
  | i, n + 1 =>
    let off := actBase + 8 * i
    let capabilityId := readStringFromTable stringTable (readU16 d off)
    if capabilityId = [] then .error .emptyCapabilityId
    else
      let paramCount := byteAt d (off + 2)
      let paramStart := byteAt d (off + 3)
      if apCount < paramStart + paramCount then .error .paramRangeOverflow
      else
        match parseParams d apBase stringTable paramStart 0 paramCount with
        | .error e => .error e
        | .ok params =>
          match parseActions d actBase apBase stringTable apCount (i + 1) n with
          | .error e => .error e
          | .ok rest => .ok ({ capabilityId := capabilityId, params := params } :: rest)

/-- The rule loop of `parseRules`: record `i` of `n` remaining, each a
`WBPRule` (10 packed bytes), validating the condition mask and the action
slice bounds.  Debounce/cooldown deciseconds are decoded to milliseconds. -/
def parseRulesTable (d : List Nat) (base condCount actCount : Nat) :
    Nat → Nat → Except ParseErr (List RuntimeRule)
  | _, 0 => .ok []
  | i, n + 1 =>
    let off := base + 10 * i
    let conditionMask := readU32 d (off + 2)
    let actionStartIdx := byteAt d (off + 6)
    let actionCount := byteAt d (off + 7)
    if (List.range 32).any (fun c => conditionMask.testBit c && decide (condCount ≤ c)) then
      .error .conditionMaskOutOfRange
    else if actCount < actionStartIdx + actionCount then .error .actionRangeOverflow
    else
      match parseRulesTable d base condCount actCount (i + 1) n with
      | .error e => .error e
      | .ok rest =>
        .ok ({ conditionMask := conditionMask, actionStartIdx := actionStartIdx,
               actionCount := actionCount, debounceMs := byteAt d (off + 8) * 10,
               cooldownMs := byteAt d (off + 9) * 10 } :: rest)

/-- `Protocol::parseRules`, check for check in source order: header length,
magic, version, declared size against the buffer and the header size, body
CRC, string-table offset, count/size consistency, then the four table
loops. -/
def parseRules (d : List Nat) : Except ParseErr ParsedTables :=
  if d.length < 24 then .error .shortHeader
  else if hdrMagic d ≠ WBP_MAGIC_RULES then .error .badMagic
  else if hdrVersion d < 2 ∨ 2 < hdrVersion d then .error .unsupportedVersion
  else if d.length < hdrTotalSize d then .error .truncatedBody
  else if hdrTotalSize d < 24 then .error .totalSizeTooSmall
  else if crc32_le 0 ((d.drop 24).take (hdrTotalSize d - 24)) ≠ hdrCrc32 d then
    .error .crcMismatch
  else
    let off0 := 24 + (if (hdrFlags d).testBit 0 then 40 else 0)
    if hdrStringTableOffset d < off0 ∨ hdrTotalSize d ≤ hdrStringTableOffset d then
      .error .badStringTableOffset
    else
      let expectedSize := off0 + hdrSignalCount d * 16 + hdrConditionCount d * 12 +
        hdrActionCount d * 8 + hdrActionParamCount d * 4 + hdrRuleCount d * 10
      if d.length < expectedSize ∨ hdrStringTableOffset d < expectedSize then
        .error .countsOverflow
      else
        let stringTable :=
          ((d.drop (hdrStringTableOffset d)).take
            (hdrTotalSize d - hdrStringTableOffset d)).map (· % 256)
        let signals := parseSignals d off0 (hdrSignalCount d)
        let condBase := off0 + 16 * hdrSignalCount d
        match parseConditions d condBase (hdrSignalCount d) 0 (hdrConditionCount d) with
        | .error e => .error e
        | .ok conditions =>
          let actBase := condBase + 12 * hdrConditionCount d
          let apBase := actBase + 8 * hdrActionCount d
          match parseActions d actBase apBase stringTable (hdrActionParamCount d) 0
              (hdrActionCount d) with
          | .error e => .error e
          | .ok actions =>
            let ruleBase := apBase + 4 * hdrActionParamCount d
            match parseRulesTable d ruleBase (hdrConditionCount d) (hdrActionCount d) 0
                (hdrRuleCount d) with
            | .error e => .error e
            | .ok rules =>
              .ok { signals := signals, conditions := conditions, actions := actions,
                    rules := rules }

/-! ## Engine state (`Engine.h` private fields)

`signalMap_` and `debugSignalMap_` (CAN-id → indices caches rebuilt on every
install) are represented implicitly: the model recomputes the matching
indices from the stored tables, which coincides with the cache because CAN
ids never change between installs.  `capabilityMeta_` carries no
claim-relevant behaviour and is omitted; `handlers_` is modelled by the set
of registered capability-id keys (the handler closures themselves are
opaque). -/

/-- A received CAN frame: id plus the 8-byte payload. -/
structure CanFrame where
  id : Nat
  data : List Nat
  deriving DecidableEq, Repr

/-- The engine's mutable state. -/
structure EngineState where
  signals : List RuntimeSignal := []
  conditions : List RuntimeCondition := []
  actions : List RuntimeAction := []
  rules : List RuntimeRule := []
  rulesetBinary : List Nat := []
  rulesetCRC : Nat := 0
  handlers : List (List Nat) := []
  rulesTriggered : Nat := 0
  unknownCapability : List Nat := []
  debugMode : Bool := false
  debugSignals : List RuntimeSignal := []
  debugDirtyFlags : List Bool := []
  debugDirtyQueue : List Nat := []
  debugQueueHead : Nat := 0
  deriving DecidableEq, Repr

/-- A freshly constructed engine (`Engine::Engine` plus the field
initialisers of `Engine.h`). -/
def engineInit : EngineState := {}

/-- `Engine::registerCapability`: record the handler key (`handlers_[id] =
handler`; re-registering an existing id keeps one entry). -/
def registerCapability (e : EngineState) (id : List Nat) : EngineState :=
  { e with handlers := if id ∈ e.handlers then e.handlers else e.handlers ++ [id] }

/-- `Engine::loadRuleset`: parse into fresh tables, validate every action's
capability id against the registered handlers, and only then swap the tables,
retain the binary and recompute the stored CRC.  Failure leaves the previous
ruleset untouched. -/
def loadRuleset (e : EngineState) (data : List Nat) : EngineState × Bool :=
  match parseRules data with
  | .error _ => (e, false)
  | .ok t =>
    match t.actions.find? (fun a => !(e.handlers.contains a.capabilityId)) with
    | some a => ({ e with unknownCapability := a.capabilityId }, false)
    | none =>
      ({ e with
           signals := t.signals, conditions := t.conditions, actions := t.actions,
           rules := t.rules, unknownCapability := [], rulesetBinary := data,
           rulesetCRC := crc32_le 0 data }, true)

/-- `Engine::clearRuleset`. -/
def clearRuleset (e : EngineState) : EngineState :=
  { e with
      signals := [], conditions := [], actions := [], rules := [],
      rulesetBinary := [], rulesetCRC := 0, rulesTriggered := 0 }

/-- `Engine::setDebugMode`. -/
def setDebugMode (e : EngineState) (enabled : Bool) : EngineState :=
  { e with debugMode := enabled }

/-! ## Condition and rule evaluation (`Engine.cpp`) -/

/-- The `EPSILON` tolerance of `Engine::evaluateCondition`. -/
def EPSILON : ℚ := 1 / 10000

/-- `Engine::evaluateCondition`: false for an out-of-range signal index or a
never-set signal; the HOLD operator tracks its rising edge in the condition's
own state; the remaining operators compare the signal value against
`value1`/`value2` with the epsilon policy for EQ/NE. -/
def evaluateCondition (signals : List RuntimeSignal) (cond : RuntimeCondition)
    (now : Nat) : RuntimeCondition × Bool :=
  if signals.length ≤ cond.signalIdx then (cond, false)
  else
    let sig := signals.getD cond.signalIdx default
    if !sig.everSet then (cond, false)
    else
      let val := sig.value
      if cond.operation = .HOLD then
        if EPSILON < |val| then
          let cond' :=
            if !cond.holdActive then { cond with holdActive := true, holdStartMs := now }
            else cond
          (cond', decide (cond'.holdMs ≤ u32sub now cond'.holdStartMs))
        else ({ cond with holdActive := false, holdStartMs := 0 }, false)
      else
        (cond,
          match cond.operation with
          | .EQ => decide (|val - cond.value1| < EPSILON)
          | .NE => decide (EPSILON ≤ |val - cond.value1|)
          | .GT => decide (cond.value1 < val)
          | .GE => decide (cond.value1 ≤ val)
          | .LT => decide (val < cond.value1)
          | .LE => decide (val ≤ cond.value1)
          | .WITHIN => decide (cond.value1 ≤ val ∧ val ≤ cond.value2)
          | .OUTSIDE => decide (val < cond.value1 ∨ cond.value2 < val)
          | .HOLD => false)

/-- The condition-mask loop of `Engine::evaluateRules`
(`for c < size && c < 32`), threading the HOLD mutations through the
condition table and short-circuiting on the first false condition.  `fuel`
starts at 32 and enforces the `c < 32` bound. -/
def evalMaskLoop (signals : List RuntimeSignal) (mask now : Nat) :
    Nat → Nat → List RuntimeCondition → List RuntimeCondition × Bool
  | 0, _, conds => (conds, true)
  | fuel + 1, c, conds =>
    if c < conds.length then
      if mask.testBit c then
        let (cond', res) := evaluateCondition signals (conds.getD c default) now
        let conds' := conds.set c cond'
        if res then evalMaskLoop signals mask now fuel (c + 1) conds'
        else (conds', false)
      else evalMaskLoop signals mask now fuel (c + 1) conds
    else (conds, true)

/-- The per-rule debounce/cooldown gate of `Engine::evaluateRules`
(lines 255-279 minus action execution): track the condition-state change,
then fire iff the conditions hold and both `now - lastConditionChangeMs ≥
debounceMs` and `now - lastTriggerMs ≥ cooldownMs` (uint32 arithmetic); on
firing, `lastTriggerMs` is set to `now`. -/
def ruleGate (r : RuntimeRule) (now : Nat) (allMet : Bool) : RuntimeRule × Bool :=
  let r1 :=
    if allMet ≠ r.lastConditionState then
      { r with lastConditionState := allMet, lastConditionChangeMs := now }
    else r
  if !allMet then (r1, false)
  else if r1.debounceMs ≤ u32sub now r1.lastConditionChangeMs ∧
      r1.cooldownMs ≤ u32sub now r1.lastTriggerMs then
    ({ r1 with lastTriggerMs := now }, true)
  else (r1, false)

/-- The action slice a fired rule executes: indices from `actionStartIdx`
while `a < actionStartIdx + actionCount && a < actions.size()`. -/
def executedSlice (start count alen : Nat) : List Nat :=
  List.range' start (min count (alen - start))

/-- The rule loop of `Engine::evaluateRules`: for each rule, run the mask
loop over the (mutating) condition table, apply the gate, and collect the
executed action indices; returns the new condition table, the new rule
table, the executed action indices in execution order, and the number of
rules that fired (the `rulesTriggered_++` count). -/
def evaluateRulesAux (signals : List RuntimeSignal) (alen now : Nat) :
    List RuntimeCondition → List RuntimeRule →
      List RuntimeCondition × List RuntimeRule × List Nat × Nat
  | conds, [] => (conds, [], [], 0)
  | conds, r :: rest =>
    let (conds1, allMet) := evalMaskLoop signals r.conditionMask now 32 0 conds
    let (r1, fired) := ruleGate r now allMet
    let ex := if fired then executedSlice r.actionStartIdx r.actionCount alen else []
    let (conds2, rest2, ex2, k) := evaluateRulesAux signals alen now conds1 rest
    (conds2, r1 :: rest2, ex ++ ex2, (if fired then 1 else 0) + k)

/-- `Engine::evaluateRules`.  Action execution
(`Engine::executeAction`) is observable only through the capability
handlers; the model returns the list of executed action indices (the code
additionally skips an action silently when its handler is absent, which
cannot occur for an installed ruleset). -/
def evaluateRules (e : EngineState) (now : Nat) : EngineState × List Nat :=
  match evaluateRulesAux e.signals e.actions.length now e.conditions e.rules with
  | (conds, rules, ex, k) =>
    ({ e with
         conditions := conds, rules := rules,
         rulesTriggered := e.rulesTriggered + k }, ex)

/-! ## CAN frame processing and the debug overlay (`Engine.cpp`) -/

/-- The ruleset-signal update of `Engine::processCanFrame`: every signal
whose CAN id matches the frame (the `signalMap_` bucket) shifts `value` into
`lastValue`, decodes the new value and marks itself set. -/
def updateRulesetSignals (signals : List RuntimeSignal) (frame : CanFrame)
    (now : Nat) : List RuntimeSignal :=
  signals.map fun sig =>
    if sig.canId = frame.id then
      { sig with
          lastValue := sig.value, value := decodeSignal sig frame.data,
          lastUpdateMs := now, everSet := true }
    else sig

/-- The `debugSignalMap_[frame.id]` bucket: indices of the debug signals with
the given CAN id, in table order (the order `loadDebugSignals` pushed them). -/
def debugIndicesFor (signals : List RuntimeSignal) (id : Nat) : List Nat :=
  (List.range signals.length).filter fun i => (signals.getD i default).canId = id

/-- The per-index body of the debug loop in `Engine::processCanFrame`:
decode the new value and, when it moved more than 0.01 from the last
reported value, push the index on the dirty queue unless it is already
flagged dirty or the queue holds 64 entries. -/
def debugUpdateOne (now : Nat) (data : List Nat) (e : EngineState) (idx : Nat) :
    EngineState :=
  match e.debugSignals.get? idx with
  | none => e
  | some sig =>
    let sig' := { sig with
                    lastValue := sig.value, value := decodeSignal sig data,
                    lastUpdateMs := now, everSet := true }
    let e1 := { e with debugSignals := e.debugSignals.set idx sig' }
    if (1 : ℚ) / 100 < |sig'.value - sig'.lastDebugValue| then
      if e1.debugDirtyFlags.getD idx false = false ∧ e1.debugDirtyQueue.length < 64 then
        { e1 with
            debugDirtyFlags := e1.debugDirtyFlags.set idx true,
            debugDirtyQueue := e1.debugDirtyQueue ++ [idx] }
      else e1
    else e1

/-- `Engine::processCanFrame`: update the matching ruleset signals, then, in
debug mode, the matching debug-overlay signals and the dirty queue. -/
def processCanFrame (e : EngineState) (frame : CanFrame) (now : Nat) : EngineState :=
  let e1 := { e with signals := updateRulesetSignals e.signals frame now }
  if e1.debugMode then
    (debugIndicesFor e1.debugSignals frame.id).foldl (debugUpdateOne now frame.data) e1
  else e1

/-- One parsed `CanId:StartBit:BitLen:BE:Factor:Offset` entry of a
`DEBUG:WATCH` definition string. -/
structure DebugSignalDef where
  canId : Nat
  startBit : Nat
  bitLength : Nat
  bigEndian : Bool
  factor : ℚ
  offset : ℚ
  deriving DecidableEq, Repr

/-- The `RuntimeSignal` `Engine::loadDebugSignals` builds from one parsed
entry: unsigned, with the `-999999.9` last-reported sentinel. -/
def debugSignalOfDef (d : DebugSignalDef) : RuntimeSignal :=
  { canId := d.canId, startBit := d.startBit, bitLength := d.bitLength,
    bigEndian := d.bigEndian, isSigned := false, factor := d.factor,
    offset := d.offset, lastDebugValue := -9999999 / 10 }

/-- `Engine::loadDebugSignals` with the comma/colon text splitting abstracted
into the already-parsed definition list: install the overlay table, clear
the dirty flags and queue, reset the head and enable debug mode. -/
def loadDebugSignals (e : EngineState) (defs : List DebugSignalDef) : EngineState :=
  let sigs := defs.map debugSignalOfDef
  { e with
      debugSignals := sigs, debugDirtyFlags := List.replicate sigs.length false,
      debugDirtyQueue := [], debugQueueHead := 0, debugMode := true }

/-- `Engine::clearDebugSignals`. -/
def clearDebugSignals (e : EngineState) : EngineState :=
  { e with
      debugSignals := [], debugDirtyFlags := [], debugDirtyQueue := [],
      debugQueueHead := 0, debugMode := false }

/-- `Engine::popDirtyDebugSignal`: when the head has consumed the queue,
reset it and report nothing; otherwise take the index at the head, clear its
dirty flag, return a copy of the signal and record its value as the last
reported one. -/
def popDirtyDebugSignal (e : EngineState) : EngineState × Option RuntimeSignal :=
  if e.debugDirtyQueue.length ≤ e.debugQueueHead then
    (if 0 < e.debugQueueHead then
        { e with debugDirtyQueue := [], debugQueueHead := 0 }
      else e, none)
  else
    let idx := e.debugDirtyQueue.getD e.debugQueueHead 0
    let e1 := { e with debugQueueHead := e.debugQueueHead + 1 }
    match e.debugSignals.get? idx with
    | none => (e1, none)
    | some sig =>
      ({ e1 with
           debugDirtyFlags := e1.debugDirtyFlags.set idx false,
           debugSignals := e1.debugSignals.set idx { sig with lastDebugValue := sig.value } },
        some sig)

/-- The engine states reachable through its public operations, starting from
a fresh engine. -/
inductive Reach : EngineState → Prop where
  | init : Reach engineInit
  | loadRuleset {e} (data : List Nat) : Reach e → Reach (loadRuleset e data).1
  | clearRuleset {e} : Reach e → Reach (clearRuleset e)
  | registerCapability {e} (id : List Nat) : Reach e → Reach (registerCapability e id)
  | processCanFrame {e} (frame : CanFrame) (now : Nat) :
      Reach e → Reach (processCanFrame e frame now)
  | evaluateRules {e} (now : Nat) : Reach e → Reach (evaluateRules e now).1
  | loadDebugSignals {e} (defs : List DebugSignalDef) :
      Reach e → Reach (loadDebugSignals e defs)
  | clearDebugSignals {e} : Reach e → Reach (clearDebugSignals e)
  | setDebugMode {e} (b : Bool) : Reach e → Reach (setDebugMode e b)
  | popDirtyDebugSignal {e} : Reach e → Reach (popDirtyDebugSignal e).1

/-- The pending entries of the dirty queue: what the head has not yet
consumed. -/
def pendingQueue (e : EngineState) : List Nat :=
  e.debugDirtyQueue.drop e.debugQueueHead

/-! ## OTA full-path session (`ESP32OTAService.cpp`)

The flash collaborators (`esp_ota_begin/write/end`,
`esp_ota_set_boot_partition`) are modelled as succeeding — their failures
produce `ERROR_FLASH`, which claim C7 does not touch — and per-session byte
counts are taken below `2^32` (the `uint32_t` counters).  The delta path
(ring buffer plus worker task) is concurrent and out of scope here. -/

/-- `enum class OTAStatus` from `interfaces/OTA.h`. -/
inductive OTAStatus where
  | IDLE | RECEIVING | VALIDATING | APPLYING | SUCCESS
  | ERROR_SPACE | ERROR_CRC | ERROR_SIGNATURE | ERROR_FLASH | ERROR_TIMEOUT
  deriving DecidableEq, Repr

/-- The full-path session state of `ESP32OTAService`. -/
structure OTAState where
  status : OTAStatus := .IDLE
  isDelta : Bool := false
  expectedSize : Nat := 0
  expectedCRC : Nat := 0
  receivedBytes : Nat := 0
  calculatedCRC : Nat := 0
  partitionSize : Nat
  deriving DecidableEq, Repr

/-- `ESP32OTAService::startFirmwareUpdate`: refuse outside `IDLE` or when the
declared size exceeds the inactive partition; otherwise open the session. -/
def startFirmwareUpdate (s : OTAState) (expectedSize crc32 : Nat) : OTAState × Bool :=
  if s.status ≠ .IDLE then (s, false)
  else if s.partitionSize < expectedSize then (s, false)
  else
    ({ s with
         expectedSize := expectedSize, expectedCRC := crc32, receivedBytes := 0,
         calculatedCRC := 0, isDelta := false, status := .RECEIVING }, true)

/-- `ESP32OTAService::writeFirmwareChunk`: refuse outside a full-path
`RECEIVING` session; a chunk that would push the byte count past the
declared size fails the session with `ERROR_SPACE`; otherwise the chunk is
written and folded into the running CRC. -/
def writeFirmwareChunk (s : OTAState) (data : List Nat) : OTAState × Bool :=
  if s.status ≠ .RECEIVING ∨ s.isDelta then (s, false)
  else if s.expectedSize < s.receivedBytes + data.length then
    ({ s with status := .ERROR_SPACE }, false)
  else
    ({ s with
         receivedBytes := s.receivedBytes + data.length,
         calculatedCRC := crc32_le s.calculatedCRC data }, true)

/-- `ESP32OTAService::finalizeFirmwareUpdate`: verify the byte count, then
the CRC, then commit (`esp_ota_end` + `esp_ota_set_boot_partition`, modelled
as succeeding) and report `SUCCESS`. -/
def finalizeFirmwareUpdate (s : OTAState) : OTAState × Bool :=
  if s.status ≠ .RECEIVING ∨ s.isDelta then (s, false)
  else if s.receivedBytes ≠ s.expectedSize then ({ s with status := .ERROR_SPACE }, false)
  else if s.calculatedCRC ≠ s.expectedCRC then ({ s with status := .ERROR_CRC }, false)
  else ({ s with status := .SUCCESS }, true)

/-- A whole receive phase: fold `writeFirmwareChunk` over the chunks,
keeping the state of each call. -/
def otaRun (s : OTAState) (chunks : List (List Nat)) : OTAState :=
  chunks.foldl (fun s c => (writeFirmwareChunk s c).1) s

/-! ## The periodic status frame (`Controller::sendStatus` in `W4RP.cpp`) -/

/-- `Controller::sendStatus`: the frame
`S:<rulesMode>:<signalCount>:<ruleCount>:<signalCount>:<uptime>:<bootCount>`.
The fourth numeric field is `engine_.getSignalCount()` again — the source
comments it "Unique CAN IDs (simplified)". -/
def sendStatus (rulesMode : Nat) (e : EngineState) (now bootCount : Nat) : String :=
  "S:" ++ toString rulesMode ++ ":" ++ toString e.signals.length ++ ":" ++
    toString e.rules.length ++ ":" ++ toString e.signals.length ++ ":" ++
    toString now ++ ":" ++ toString bootCount

/-- The status frame as claim C8 words it: the fourth numeric field is the
number of distinct CAN ids among the installed signals.  Stated from the
spec, to be compared with `sendStatus`. -/
def sendStatusSpecUniqueIds (rulesMode : Nat) (e : EngineState) (now bootCount : Nat) :
    String :=
  "S:" ++ toString rulesMode ++ ":" ++ toString e.signals.length ++ ":" ++
    toString e.rules.length ++ ":" ++ toString (e.signals.map (·.canId)).dedup.length ++
    ":" ++ toString now ++ ":" ++ toString bootCount

/-! ## Concrete test containers (all with valid magic, version 2, consistent
sizes and — except where stated — a matching body CRC) -/

/-- 53 bytes: one signal (CAN id 1, 8-bit little-endian, factor 0.5) and one
WITHIN condition serialized with `value1 = 2.0f`, `value2 = 1.0f` (a reversed
range); no actions, no rules. -/
def bufWithinReversed : List Nat :=
  [2, 87, 222, 192, 2, 0, 53, 0, 1, 1, 0, 0, 0, 0, 0, 0, 52, 0, 0, 0,
   84, 129, 254, 180,
   1, 0, 0, 0, 0, 0, 8, 0, 0, 0, 0, 63, 0, 0, 0, 0,
   0, 6, 0, 0, 0, 0, 0, 64, 0, 0, 128, 63,
   0]

/-- The engine after installing `bufWithinReversed` on a fresh engine. -/
def withinEngine : EngineState := (loadRuleset engineInit bufWithinReversed).1

/-- `withinEngine` after a CAN frame with id 1 and payload byte `0x03`
(decoded signal value `3 * 0.5 = 1.5`). -/
def withinFrameState : EngineState :=
  processCanFrame withinEngine ⟨1, [3, 0, 0, 0, 0, 0, 0, 0]⟩ 0

/-- 36 bytes: no signals/conditions/rules, one action whose capability id is
the string table entry `"led"`. -/
def bufUnknownCap : List Nat :=
  [2, 87, 222, 192, 2, 0, 36, 0, 0, 0, 1, 0, 0, 0, 0, 0, 32, 0, 0, 0,
   188, 41, 168, 69,
   0, 0, 0, 0, 0, 0, 0, 0,
   108, 101, 100, 0]

/-- 25 bytes: passes the length/magic/version/size checks but carries string
table offset 0 (invalid: inside the header) and a `crc32` field of 0 that
does not match its one-byte body. -/
def bufBadOffsetBadCrc : List Nat :=
  [2, 87, 222, 192, 2, 0, 25, 0, 0, 0, 0, 0, 0, 0, 0, 0, 0, 0, 0, 0,
   0, 0, 0, 0,
   0]

/-- 57 bytes: two signals that both decode CAN id 1 (so the unique-CAN-id
count is 1 while the signal count is 2); no conditions, actions or rules. -/
def bufDupCanIds : List Nat :=
  [2, 87, 222, 192, 2, 0, 57, 0, 2, 0, 0, 0, 0, 0, 0, 0, 56, 0, 0, 0,
   183, 40, 54, 98,
   1, 0, 0, 0, 0, 0, 8, 0, 0, 0, 128, 63, 0, 0, 0, 0,
   1, 0, 0, 0, 8, 0, 8, 0, 0, 0, 128, 63, 0, 0, 0, 0,
   0]

/-- The engine after installing `bufDupCanIds` on a fresh engine. -/
def dupIdEngine : EngineState := (loadRuleset engineInit bufDupCanIds).1

/-- The spec's concrete little-endian decode scenario: 16-bit unsigned signal
at `start_bit = 0`, factor 1, offset 0. -/
def sigLE16 : RuntimeSignal :=
  { canId := 0, startBit := 0, bitLength := 16, bigEndian := false,
    isSigned := false, factor := 1, offset := 0 }

/-- The spec's concrete big-endian decode scenario: 8-bit signal at
`start_bit = 7`, factor 1, offset 0. -/
def sigBE8 : RuntimeSignal :=
  { canId := 0, startBit := 7, bitLength := 8, bigEndian := true,
    isSigned := false, factor := 1, offset := 0 }

/-! ## Single-rule trace semantics (for the debounce/cooldown claim)

`Engine::evaluateRules` touches one rule's runtime fields only through the
per-rule gate (`ruleGate` above).  A sequence of `evaluateRules` calls,
interleaved with arbitrary CAN-frame processing, therefore drives each rule
through `ruleGate` with some sequence of `(clock, all-conditions-met)`
samples; `ruleRun` replays such a sampled trace. -/

/-- Thread one rule through a sampled trace; returns the final rule state
and, per sample, whether the rule fired (executed its actions) there. -/
def ruleRun (r : RuntimeRule) : List (Nat × Bool) → RuntimeRule × List Bool
  | [] => (r, [])
  | (t, m) :: rest =>
    let (r1, fired) := ruleGate r t m
    let (rf, flags) := ruleRun r1 rest
    (rf, fired :: flags)

/-- A freshly installed rule: the parsed wire fields plus the
zero-initialised runtime state (`lastTriggerMs = 0`,
`lastConditionChangeMs = 0`, `lastConditionState = false`). -/
def installedRule (mask start count D C : Nat) : RuntimeRule :=
  { conditionMask := mask, actionStartIdx := start, actionCount := count,
    debounceMs := D, cooldownMs := C }

/-- Clock of sample `i` of a trace. -/
def traceTime (tr : List (Nat × Bool)) (i : Nat) : Nat := (tr.getD i (0, false)).1

/-- Conjunction value of sample `i` of a trace. -/
def traceMet (tr : List (Nat × Bool)) (i : Nat) : Bool := (tr.getD i (0, false)).2

/-- Whether the rule fired at sample `i` of the trace. -/
def firedAt (r : RuntimeRule) (tr : List (Nat × Bool)) (i : Nat) : Bool :=
  ((ruleRun r tr).2).getD i false

/-- The clocks of the trace never decrease (`millis()` between consecutive
`evaluateRules` calls). -/
def TraceMono (tr : List (Nat × Bool)) : Prop :=
  tr.Pairwise fun a b => a.1 ≤ b.1

/-- All clocks fit in `uint32_t`. -/
def TraceBounded (tr : List (Nat × Bool)) : Prop :=
  ∀ p ∈ tr, p.1 < U32

/-- Whether sample `l` flips the gate's condition state: the state starts
false and becomes the sample's AND-group value after every sample, so
sample 0 flips iff it is true, and sample `l ≥ 1` flips iff its value
differs from sample `l - 1`. -/
def changeAt (tr : List (Nat × Bool)) (l : Nat) : Bool :=
  if l = 0 then traceMet tr 0 else traceMet tr l != traceMet tr (l - 1)

/-- The index of the last condition-state change among samples `0..j`,
`none` when the state never changed there. -/
def lastChangeIdx (tr : List (Nat × Bool)) (j : Nat) : Option Nat :=
  ((List.range (j + 1)).filter fun l => changeAt tr l).getLast?

/-- The clock of the last condition-state change at or before sample `j`
(the installed `lastConditionChangeMs` value 0 when the state never
changed). -/
def lastChangeTime (tr : List (Nat × Bool)) (j : Nat) : Nat :=
  match lastChangeIdx tr j with
  | none => 0
  | some c => traceTime tr c

/-- Trigger-time invariant of a rule state against the processed trace
prefix and its fired flags: either the rule never fired and
`lastTriggerMs` still holds its installed value 0, or `lastTriggerMs` is
the clock of the most recent fired sample. -/
def InvTrig (r : RuntimeRule) (pre : List (Nat × Bool)) (flags : List Bool) : Prop :=
  (r.lastTriggerMs = 0 ∧ ∀ k, flags.getD k false = false)
  ∨ (∃ k, k < pre.length ∧ flags.getD k false = true ∧
      r.lastTriggerMs = traceTime pre k ∧ ∀ l, k < l → flags.getD l false = false)

/-- Condition-change invariant of a rule state against the processed trace
prefix: either no sample was ever observed true and the installed values
remain, or `lastConditionChangeMs` is the clock of the last state flip and
every sample from that flip on equals `lastConditionState`. -/
def InvChange (r : RuntimeRule) (pre : List (Nat × Bool)) : Prop :=
  (r.lastConditionState = false ∧ r.lastConditionChangeMs = 0 ∧
    ∀ l, l < pre.length → traceMet pre l = false)
  ∨ (∃ c, c < pre.length ∧ r.lastConditionChangeMs = traceTime pre c ∧
      ∀ l, c ≤ l → l < pre.length → traceMet pre l = r.lastConditionState)

instance (tr : List (Nat × Bool)) : Decidable (TraceMono tr) := by
  unfold TraceMono
  infer_instance

instance (tr : List (Nat × Bool)) : Decidable (TraceBounded tr) := by
  unfold TraceBounded
  infer_instance

/-- The number of rules that fired in one `evaluateRules` call (the amount
`rulesTriggered_` grows by). -/
def firedCount (e : EngineState) (now : Nat) : Nat :=
  (evaluateRulesAux e.signals e.actions.length now e.conditions e.rules).2.2.2

/-- The session state right after a successful full-path `startFirmwareUpdate`
on an idle service with partition size `p`, declared size `N` and CRC `C`. -/
def otaReceiving (p N C : Nat) : OTAState :=
  { partitionSize := p, expectedSize := N, expectedCRC := C, receivedBytes := 0,
    calculatedCRC := 0, isDelta := false, status := .RECEIVING }

/-- The session state after additionally receiving `chunks` without
exceeding the declared size. -/
def otaReceived (p N C : Nat) (chunks : List (List Nat)) : OTAState :=
  { partitionSize := p, expectedSize := N, expectedCRC := C,
    receivedBytes := (chunks.map List.length).sum,
    calculatedCRC := crc32_le 0 chunks.flatten, isDelta := false, status := .RECEIVING }

/-- Decidable equality for parse results (needed for the concrete
evaluations). -/
instance {e a : Type} [DecidableEq e] [DecidableEq a] : DecidableEq (Except e a) := fun x y =>
  match x, y with
  | .error u, .error v =>
    if h : u = v then .isTrue (congrArg Except.error h)
    else .isFalse fun hc => h (Except.error.inj hc)
  | .ok u, .ok v =>
    if h : u = v then .isTrue (congrArg Except.ok h)
    else .isFalse fun hc => h (Except.ok.inj hc)
  | .error _, .ok _ => .isFalse fun hc => Except.noConfusion hc
  | .ok _, .error _ => .isFalse fun hc => Except.noConfusion hc

/-- The value the debug overlay holds for index `idx`
(`debugSignals_[idx].value`). -/
def debugValueAt (e : EngineState) (idx : Nat) : ℚ :=
  (e.debugSignals.getD idx default).value

/-- The last value reported for index `idx`
(`debugSignals_[idx].lastDebugValue`). -/
def debugReportedAt (e : EngineState) (idx : Nat) : ℚ :=
  (e.debugSignals.getD idx default).lastDebugValue

/-- The dirty-queue invariant maintained by every engine operation: the
backing vector holds at most 64 entries, the head has not run past it, the
pending (unconsumed) part repeats no index and every pending index is still
flagged dirty, every queued index addresses an overlay signal, and the flag
vector is as long as the overlay table. -/
def DebugInv (e : EngineState) : Prop :=
  e.debugDirtyQueue.length ≤ 64 ∧
  e.debugQueueHead ≤ e.debugDirtyQueue.length ∧
  (pendingQueue e).Nodup ∧
  (∀ idx ∈ pendingQueue e, e.debugDirtyFlags.getD idx false = true) ∧
  (∀ idx ∈ e.debugDirtyQueue, idx < e.debugSignals.length) ∧
  e.debugDirtyFlags.length = e.debugSignals.length

/-- A debug-overlay watch entry used for concrete evaluations: CAN id 1,
little-endian byte 0, identity scaling. -/
def defW : DebugSignalDef :=
  { canId := 1, startBit := 0, bitLength := 8, bigEndian := false,
    factor := 1, offset := 0 }

/-- A CAN frame for id 1 carrying the byte 7. -/
def frameW : CanFrame := { id := 1, data := [7] }

/-- A fresh engine watching `defW` (reachable via `loadDebugSignals`). -/
def c9Base : EngineState := loadDebugSignals engineInit [defW]

/-- `c9Base` after processing `frameW` at t=5: the decoded value 7 moved
from the sentinel, so index 0 is pending. -/
def c9State : EngineState := processCanFrame c9Base frameW 5

/-- A condition used in the concrete bounds-safety evaluations. -/
def c10Cond : RuntimeCondition :=
  { signalIdx := 0, operation := .EQ, value1 := 1, value2 := 2 }

/-- A table state whose single vacuous rule (empty condition mask, zero
debounce and cooldown) fires immediately, with an action slice that
overruns the one-entry action table. -/
def c10Engine : EngineState :=
  { engineInit with
      rules := [{ conditionMask := 0, actionStartIdx := 0, actionCount := 2,
                  debounceMs := 0, cooldownMs := 0 }],
      actions := [{ capabilityId := [108] }] }

/-! # Theorems -/

/-! ## 32-bit arithmetic and CRC lemmas -/

theorem u32sub_eq_sub {a b : Nat} (hba : b ≤ a) (ha : a < U32) :
    u32sub a b = a - b := by
  have hb : b < U32 := lt_of_le_of_lt hba ha
  unfold u32sub
  rw [Nat.mod_eq_of_lt ha, Nat.mod_eq_of_lt hb]
  have h1 : a + (U32 - b) = (a - b) + U32 := by omega
  rw [h1, Nat.add_mod_right, Nat.mod_eq_of_lt (by omega)]

theorem xor_lt_u32 {a b : Nat} (ha : a < U32) (hb : b < U32) : a ^^^ b < U32 := by
  have hU : U32 = 2 ^ 32 := by norm_num [U32]
  rw [hU] at ha hb ⊢
  exact Nat.xor_lt_two_pow ha hb

theorem crcStepBit_lt {c : Nat} (h : c < U32) : crcStepBit c < U32 := by
  unfold crcStepBit
  split
  · exact xor_lt_u32 (by unfold U32 at *; omega) (by norm_num [U32])
  · unfold U32 at *; omega

theorem crcByte_lt {c : Nat} (b : Nat) (h : c < U32) : crcByte c b < U32 := by
  unfold crcByte
  have hx : c ^^^ b % 256 < U32 :=
    xor_lt_u32 h (lt_of_lt_of_le (Nat.mod_lt _ (by norm_num)) (by norm_num [U32]))
  have : ∀ n x, x < U32 → crcStepBit^[n] x < U32 := by
    intro n
    induction n with
    | zero => intro x hx; simpa using hx
    | succ n ih =>
      intro x hx
      rw [Function.iterate_succ_apply]
      exact ih _ (crcStepBit_lt hx)
  exact this 8 _ hx

theorem crc_foldl_lt {c : Nat} (data : List Nat) (h : c < U32) :
    data.foldl crcByte c < U32 := by
  induction data generalizing c with
  | nil => simpa using h
  | cons b rest ih => exact ih (crcByte_lt b h)

theorem crc32_le_lt (seed : Nat) (data : List Nat) : crc32_le seed data < U32 := by
  unfold crc32_le
  exact xor_lt_u32
    (crc_foldl_lt data (xor_lt_u32 (Nat.mod_lt _ (by norm_num [U32])) (by norm_num [U32])))
    (by norm_num [U32])

/-- Chaining: feeding the CRC of a first chunk as the seed for a second chunk
computes the CRC of the concatenation.  This is how
`ESP32OTAService::writeFirmwareChunk` accumulates its running CRC. -/
theorem crc32_le_append (seed : Nat) (a b : List Nat) :
    crc32_le (crc32_le seed a) b = crc32_le seed (a ++ b) := by
  unfold crc32_le
  rw [List.foldl_append]
  congr 1
  have h1 : (a.foldl crcByte (seed % U32 ^^^ 0xFFFFFFFF)) < U32 :=
    crc_foldl_lt a (xor_lt_u32 (Nat.mod_lt _ (by norm_num [U32])) (by norm_num [U32]))
  have h2 : (a.foldl crcByte (seed % U32 ^^^ 0xFFFFFFFF)) ^^^ 0xFFFFFFFF < U32 :=
    xor_lt_u32 h1 (by norm_num [U32])
  rw [Nat.mod_eq_of_lt h2, Nat.xor_assoc]
  norm_num

/-! ## Bit-extraction lemmas -/

theorem payloadBit_le_one (data : List Nat) (pos : Nat) : payloadBit data pos ≤ 1 := by
  unfold payloadBit
  split
  · omega
  · omega

theorem extractLE_lt (data : List Nat) (start n : Nat) :
    extractLE data start n < 2 ^ n := by
  induction n with
  | zero => simp [extractLE]
  | succ n ih =>
    rw [extractLE]
    have hb : payloadBit data ((start + n) % 65536) <<< n < 2 ^ (n + 1) := by
      rw [Nat.shiftLeft_eq]
      have := payloadBit_le_one data ((start + n) % 65536)
      calc payloadBit data ((start + n) % 65536) * 2 ^ n ≤ 1 * 2 ^ n := by
            exact Nat.mul_le_mul_right _ this
        _ < 2 ^ (n + 1) := by rw [one_mul, pow_succ]; omega
    have hle : (2 : Nat) ^ n ≤ 2 ^ (n + 1) := Nat.pow_le_pow_right (by norm_num) (by omega)
    exact Nat.or_lt_two_pow (lt_of_lt_of_le ih hle) hb

theorem extractLE_testBit (data : List Nat) (start : Nat) :
    ∀ n i, i < n → (extractLE data start n).testBit i =
      decide (payloadBit data ((start + i) % 65536) = 1) := by
  intro n
  induction n with
  | zero => omega
  | succ n ih =>
    intro i hi
    rw [extractLE, Nat.testBit_or, Nat.testBit_shiftLeft]
    rcases Nat.lt_or_ge i n with h | h
    · rw [ih i h]
      have : ¬(n ≤ i) := by omega
      simp [this]
    · have hin : i = n := by omega
      subst hin
      have h0 : (extractLE data start i).testBit i = false :=
        Nat.testBit_lt_two_pow (extractLE_lt data start i)
      rw [h0]
      have h1 : (payloadBit data ((start + i) % 65536)).testBit (i - i) =
          decide (payloadBit data ((start + i) % 65536) = 1) := by
        rw [Nat.sub_self]
        have := payloadBit_le_one data ((start + i) % 65536)
        rw [Nat.testBit_zero]
        rcases Nat.le_one_iff_eq_zero_or_eq_one.mp this with h | h <;> simp [h]
      simp [h1]
      have hp := payloadBit_le_one data ((start + i) % 65536)
      omega

theorem extractBE_eq_zeroFill (data : List Nat) (start : Nat) :
    ∀ n, n ≤ start + 1 → start < 64 →
      extractBE data start n = extractBESpecZeroFill data start n := by
  intro n
  induction n with
  | zero => intro _ _; rfl
  | succ n ih =>
    intro hn hs
    have hrange : ¬((start : Int) - n < 0 ∨ 64 ≤ (start : Int) - n) := by omega
    rw [extractBE, extractBESpecZeroFill, if_neg hrange, if_neg hrange,
      ih (by omega) hs]

theorem extractBE_lt (data : List Nat) (start : Nat) :
    ∀ n, extractBE data start n < 2 ^ beInRangeCount start n := by
  intro n
  induction n with
  | zero => simp [extractBE, beInRangeCount]
  | succ n ih =>
    rw [extractBE]
    have hiff : (¬((start : Int) - n < 0 ∨ 64 ≤ (start : Int) - n)) ↔
        (n ≤ start ∧ start - n < 64) := by omega
    have hcount : beInRangeCount start (n + 1) =
        beInRangeCount start n + (if n ≤ start ∧ start - n < 64 then 1 else 0) := by
      unfold beInRangeCount
      rw [List.range_succ, List.filter_append]
      simp only [List.length_append, List.filter_cons, List.filter_nil]
      split <;> simp_all
    split
    · rename_i h
      rw [hcount]
      have : ¬(n ≤ start ∧ start - n < 64) := by omega
      rw [if_neg this, Nat.add_zero]
      exact ih
    · rename_i h
      rw [hcount, if_pos (hiff.mp h)]
      have hb : byteAt data ((start - n) / 8) / 2 ^ ((start - n) % 8) % 2 < 2 :=
        Nat.mod_lt _ (by norm_num)
      rw [pow_succ]
      omega

theorem extractBits_le_eq (data : List Nat) (start len : Nat)
    (h1 : 1 ≤ len) (h2 : len ≤ 64) :
    extractBits data start len false = extractLE data start len := by
  unfold extractBits
  rw [if_neg (by omega)]
  rfl

theorem extractBits_be_eq (data : List Nat) (start len : Nat)
    (h1 : 1 ≤ len) (h2 : len ≤ 64) :
    extractBits data start len true = extractBE data start len := by
  unfold extractBits
  rw [if_neg (by omega)]
  rfl

/-- C5 counterexample.  The claim says a bit whose byte index
`(start_bit + i) / 8` is ≥ 8 is skipped (contributes zero).  The code
instead stores `uint16_t bitPos = start + i` and `uint8_t byteIdx =
bitPos / 8`, so the byte index is truncated to `(bitPos / 8) % 256`
*before* the `byteIdx < 8` guard: at `start_bit = 2042`, `len = 7`,
payload `[0x01, …]`, iteration `i = 6` has true byte index
`2048 / 8 = 256 ≥ 8`, yet the truncated index is `0`, so the code reads
bit 0 of `data[0]` and returns 64 where the claim demands bit 6 (and the
whole result) to be zero. -/
theorem claim_C5_counterexample :
    extractBits [1, 0, 0, 0, 0, 0, 0, 0] 2042 7 false = 64 ∧
    (extractBits [1, 0, 0, 0, 0, 0, 0, 0] 2042 7 false).testBit 6 = true ∧
    (if (2042 + 6) / 8 < 8 then
        (byteAt [1, 0, 0, 0, 0, 0, 0, 0] ((2042 + 6) / 8)).testBit ((2042 + 6) % 8)
      else false) = false := by
  refine ⟨by decide, by decide, ?_⟩
  rw [if_neg (by decide)]

/-- C5 (amended): little-endian extraction with the source's integer
widths.  For every signal with `bit_length ∈ 1..=64`, bit `i` of the raw
value equals bit `bitPos % 8` of payload byte `(bitPos / 8) % 256` where
`bitPos = (start_bit + i) % 2^16` (the `uint16_t bitPos` / `uint8_t
byteIdx` of the loop), a position whose truncated byte index is ≥ 8 being
skipped; whenever `start_bit + bit_length ≤ 2048` no truncation occurs and
this is the claim's original formula (true byte index ≥ 8 skipped); and
decoding a little-endian 16-bit unsigned signal at `start_bit = 0` with
factor 1 and offset 0 from a payload beginning `[0x34, 0x12]` yields
4660. -/
theorem claim_C5 (data : List Nat) (start len i : Nat)
    (h1 : 1 ≤ len) (h2 : len ≤ 64) (hi : i < len) :
    ((extractBits data start len false).testBit i =
      if ((start + i) % 65536) / 8 % 256 < 8 then
        (byteAt data (((start + i) % 65536) / 8 % 256)).testBit ((start + i) % 65536 % 8)
      else false)
    ∧ (start + len ≤ 2048 →
        ((extractBits data start len false).testBit i =
          if (start + i) / 8 < 8 then
            (byteAt data ((start + i) / 8)).testBit ((start + i) % 8)
          else false))
    ∧ decodeSignal sigLE16 [0x34, 0x12, 0, 0, 0, 0, 0, 0] = 4660 := by
  have hmain : (extractBits data start len false).testBit i =
      if ((start + i) % 65536) / 8 % 256 < 8 then
        (byteAt data (((start + i) % 65536) / 8 % 256)).testBit ((start + i) % 65536 % 8)
      else false := by
    rw [extractBits_le_eq data start len h1 h2, extractLE_testBit data start len i hi]
    unfold payloadBit
    split
    · simp [Nat.testBit_to_div_mod]
    · simp
  refine ⟨hmain, ?_, ?_⟩
  · intro hsmall
    rw [hmain]
    have hlt : start + i < 2048 := by omega
    have h16 : (start + i) % 65536 = start + i := Nat.mod_eq_of_lt (by omega)
    have h8 : (start + i) / 8 % 256 = (start + i) / 8 := Nat.mod_eq_of_lt (by omega)
    rw [h16, h8]
  · have h : extractBits [0x34, 0x12, 0, 0, 0, 0, 0, 0] 0 16 false = 4660 := by decide
    simp [decodeSignal, sigLE16, h]

/-- Witness for C5 at `data = [0x34, 0x12, 0, …]`, `start = 0`, `len = 16`,
`i = 3` — a configuration with no wrapping, exercising both the truncated
and the original formulas. -/
theorem claim_C5_witness :
    (1 ≤ 16 ∧ 16 ≤ 64 ∧ 3 < 16 ∧ 0 + 16 ≤ 2048) ∧
    (((extractBits [0x34, 0x12, 0, 0, 0, 0, 0, 0] 0 16 false).testBit 3 =
      if ((0 + 3) % 65536) / 8 % 256 < 8 then
        (byteAt [0x34, 0x12, 0, 0, 0, 0, 0, 0] (((0 + 3) % 65536) / 8 % 256)).testBit
          ((0 + 3) % 65536 % 8)
      else false)
    ∧ ((extractBits [0x34, 0x12, 0, 0, 0, 0, 0, 0] 0 16 false).testBit 3 =
      if (0 + 3) / 8 < 8 then
        (byteAt [0x34, 0x12, 0, 0, 0, 0, 0, 0] ((0 + 3) / 8)).testBit ((0 + 3) % 8)
      else false)
    ∧ decodeSignal sigLE16 [0x34, 0x12, 0, 0, 0, 0, 0, 0] = 4660) := by
  have h := claim_C5 [0x34, 0x12, 0, 0, 0, 0, 0, 0] 0 16 3 (by decide) (by decide) (by decide)
  exact ⟨by decide, h.1, h.2.1 (by decide), h.2.2⟩

/-- C6 counterexample.  The claim says every out-of-range bit position
contributes a zero bit to the MSB-first accumulator, so that the result always
has `bit_length` accumulated bit positions (`extractBESpecZeroFill`).  The code
instead `continue`s — it skips the shift entirely.  At `start_bit = 0`,
`bit_length = 2`, payload `[0x01, …]`, the code yields 1 while the claimed
zero-fill accumulation yields 2. -/
theorem claim_C6_counterexample :
    extractBits [1, 0, 0, 0, 0, 0, 0, 0] 0 2 true = 1 ∧
    extractBESpecZeroFill [1, 0, 0, 0, 0, 0, 0, 0] 0 2 = 2 ∧
    extractBits [1, 0, 0, 0, 0, 0, 0, 0] 0 2 true ≠
      extractBESpecZeroFill [1, 0, 0, 0, 0, 0, 0, 0] 0 2 := by
  decide

/-- C6 (amended): Big-endian signal extraction accumulates MSB-first from bit
`(start_bit - i) mod 8` of byte `(start_bit - i) / 8`, but a bit position
outside the 64-bit payload range is skipped entirely (no zero bit is shifted
in), so the result has only as many accumulated bit positions as there are
in-range positions: it is bounded by `2 ^ beInRangeCount`, and it agrees with
the spec's zero-fill accumulation whenever every position is in range.
Decoding a big-endian 8-bit signal at `start_bit = 7` from a payload beginning
`[0x5A]` yields 90. -/
theorem claim_C6 (data : List Nat) (start len : Nat) :
    (1 ≤ len → len ≤ 64 → start < 64 → len ≤ start + 1 →
      extractBits data start len true = extractBESpecZeroFill data start len)
    ∧ extractBits data start len true < 2 ^ beInRangeCount start len
    ∧ decodeSignal sigBE8 [0x5A, 0, 0, 0, 0, 0, 0, 0] = 90 := by
  refine ⟨fun h1 h2 hs hl => ?_, ?_, ?_⟩
  · rw [extractBits_be_eq data start len h1 h2]
    exact extractBE_eq_zeroFill data start len hl hs
  · unfold extractBits
    split
    · exact Nat.pos_pow_of_pos _ (by norm_num)
    · split
      · exact extractBE_lt data start len
      · simp_all
  · have h : extractBits [0x5A, 0, 0, 0, 0, 0, 0, 0] 7 8 true = 90 := by decide
    simp [decodeSignal, sigBE8, h]

/-- Witness for C6 at `data = [0x5A, 0, …]`, `start = 7`, `len = 8`. -/
theorem claim_C6_witness :
    ((1 ≤ 8 ∧ 8 ≤ 64 ∧ 7 < 64 ∧ 8 ≤ 7 + 1) ∧
      extractBits [0x5A, 0, 0, 0, 0, 0, 0, 0] 7 8 true =
        extractBESpecZeroFill [0x5A, 0, 0, 0, 0, 0, 0, 0] 7 8)
    ∧ extractBits [0x5A, 0, 0, 0, 0, 0, 0, 0] 7 8 true < 2 ^ beInRangeCount 7 8
    ∧ decodeSignal sigBE8 [0x5A, 0, 0, 0, 0, 0, 0, 0] = 90 :=
  ⟨⟨by decide, (claim_C6 [0x5A, 0, 0, 0, 0, 0, 0, 0] 7 8).1 (by decide) (by decide)
      (by decide) (by decide)⟩,
    (claim_C6 [0x5A, 0, 0, 0, 0, 0, 0, 0] 7 8).2.1,
    (claim_C6 [0x5A, 0, 0, 0, 0, 0, 0, 0] 7 8).2.2⟩

/-! ## C1: install atomicity -/

/-- C1: ruleset installation is atomic.  Whenever `loadRuleset` fails —
because parsing fails or because some action references a capability id with
no registered handler — the signal, condition, action and rule tables (and
hence their counts), the retained ruleset binary and the stored ruleset CRC
are all unchanged; and when the first offending action `a` exists, the
failure sets `unknownCapability` (what `getUnknownCapability` returns) to
`a`'s capability id.  The tables are replaced only on the `true` path, after
every check has passed. -/
theorem claim_C1 (e : EngineState) (data : List Nat) :
    ((loadRuleset e data).2 = false →
      (loadRuleset e data).1.signals = e.signals ∧
      (loadRuleset e data).1.conditions = e.conditions ∧
      (loadRuleset e data).1.actions = e.actions ∧
      (loadRuleset e data).1.rules = e.rules ∧
      (loadRuleset e data).1.rulesetBinary = e.rulesetBinary ∧
      (loadRuleset e data).1.rulesetCRC = e.rulesetCRC)
    ∧ (∀ t a, parseRules data = .ok t →
        t.actions.find? (fun a => !(e.handlers.contains a.capabilityId)) = some a →
        loadRuleset e data = ({ e with unknownCapability := a.capabilityId }, false)) := by
  constructor
  · intro h
    unfold loadRuleset at h ⊢
    cases hp : parseRules data with
    | error err => exact ⟨rfl, rfl, rfl, rfl, rfl, rfl⟩
    | ok t =>
      rw [hp] at h
      cases hf : t.actions.find? (fun a => !(e.handlers.contains a.capabilityId)) with
      | some a =>
        simp only [hf]
        exact ⟨trivial, trivial, trivial, trivial, trivial, trivial⟩
      | none =>
        simp only [hf] at h
        exact Bool.noConfusion h
  · intro t a hp hf
    unfold loadRuleset
    rw [hp]
    simp only [hf]

set_option maxRecDepth 1000000 in
/-- Witness for C1 at `bufUnknownCap` on a fresh engine (no registered
capabilities): the unregistered capability is `"led"` = `[108, 101, 100]`,
and every table is preserved. -/
theorem claim_C1_witness :
    ((loadRuleset engineInit bufUnknownCap).1.signals = engineInit.signals ∧
      (loadRuleset engineInit bufUnknownCap).1.conditions = engineInit.conditions ∧
      (loadRuleset engineInit bufUnknownCap).1.actions = engineInit.actions ∧
      (loadRuleset engineInit bufUnknownCap).1.rules = engineInit.rules ∧
      (loadRuleset engineInit bufUnknownCap).1.rulesetBinary = engineInit.rulesetBinary ∧
      (loadRuleset engineInit bufUnknownCap).1.rulesetCRC = engineInit.rulesetCRC)
    ∧ loadRuleset engineInit bufUnknownCap =
        ({ engineInit with unknownCapability := [108, 101, 100] }, false) :=
  ⟨(claim_C1 engineInit bufUnknownCap).1 (by decide),
    (claim_C1 engineInit bufUnknownCap).2 ⟨[], [], [⟨[108, 101, 100], []⟩], []⟩
      ⟨[108, 101, 100], []⟩ (by decide) (by decide)⟩

/-! ## C2: position of the CRC check -/

/-- C2 counterexample.  The claim says the CRC check comes last, so an input
with both an invalid string-table offset and a mismatching body CRC reports
the string-table error.  `bufBadOffsetBadCrc` is such an input — it passes
the ShortHeader, BadMagic, UnsupportedVersion and TruncatedBody/size checks,
its string-table offset (0) is invalid, and its `crc32` field does not match
the body — yet the parser reports `crcMismatch`, not
`badStringTableOffset`. -/
theorem claim_C2_counterexample :
    24 ≤ bufBadOffsetBadCrc.length ∧
    hdrMagic bufBadOffsetBadCrc = WBP_MAGIC_RULES ∧
    hdrVersion bufBadOffsetBadCrc = 2 ∧
    hdrTotalSize bufBadOffsetBadCrc ≤ bufBadOffsetBadCrc.length ∧
    24 ≤ hdrTotalSize bufBadOffsetBadCrc ∧
    hdrStringTableOffset bufBadOffsetBadCrc < 24 ∧
    crc32_le 0
        ((bufBadOffsetBadCrc.drop 24).take (hdrTotalSize bufBadOffsetBadCrc - 24)) ≠
      hdrCrc32 bufBadOffsetBadCrc ∧
    parseRules bufBadOffsetBadCrc = .error .crcMismatch ∧
    parseRules bufBadOffsetBadCrc ≠ .error .badStringTableOffset := by
  decide

/-- C2 (amended): the CRC check runs directly after the
ShortHeader/BadMagic/UnsupportedVersion/TruncatedBody(+minimum-size) checks
and before the string-table-offset and counts checks: every input that
passes the first four checks and whose body CRC does not match the header's
`crc32` field is reported as `crcMismatch`, whatever its string-table offset
or counts. -/
theorem claim_C2 (d : List Nat) (h1 : 24 ≤ d.length)
    (h2 : hdrMagic d = WBP_MAGIC_RULES) (h3 : hdrVersion d = 2)
    (h4 : hdrTotalSize d ≤ d.length) (h5 : 24 ≤ hdrTotalSize d)
    (h6 : crc32_le 0 ((d.drop 24).take (hdrTotalSize d - 24)) ≠ hdrCrc32 d) :
    parseRules d = .error .crcMismatch := by
  unfold parseRules
  rw [if_neg (by omega), if_neg (by simp [h2]), if_neg (by omega), if_neg (by omega),
    if_neg (by omega), if_pos h6]

/-- Witness for C2 at `bufBadOffsetBadCrc`. -/
theorem claim_C2_witness :
    24 ≤ bufBadOffsetBadCrc.length ∧
    parseRules bufBadOffsetBadCrc = .error .crcMismatch :=
  ⟨by decide, claim_C2 bufBadOffsetBadCrc (by decide) (by decide) (by decide) (by decide)
    (by decide) (by decide)⟩

/-! ## C3: the missing WITHIN swap -/

set_option maxRecDepth 1000000 in
/-- C3: evaluation of the code at the failing input.  `bufWithinReversed`
serializes a WITHIN condition with `value1 = 2.0 > value2 = 1.0`.  The claim
(and `W4RPBLE.cpp:750-751`, the repository's legacy JSON loader) requires
the codec or loader to swap the bounds, after which a signal value between
the serialized bounds — here `1.5`, with `1 ≤ 1.5 ≤ 2` — must satisfy the
condition.  The WBP parser installs the condition unswapped
(`value1 = 2, value2 = 1`), so `evaluateCondition` — which tests
`value1 ≤ val ∧ val ≤ value2` — returns false at `val = 1.5`. -/
theorem claim_C3 :
    (loadRuleset engineInit bufWithinReversed).2 = true ∧
    withinEngine.conditions =
      [{ signalIdx := 0, operation := .WITHIN, value1 := 2, value2 := 1 }] ∧
    withinFrameState.signals.map (fun s => s.value) = [3 / 2] ∧
    (evaluateCondition withinFrameState.signals
      (withinFrameState.conditions.getD 0 default) 5).2 = false ∧
    (1 : ℚ) ≤ 3 / 2 ∧ (3 / 2 : ℚ) ≤ 2 := by
  decide

/-! ## C4: debounce and cooldown gating -/

theorem ruleGate_lastConditionState (r : RuntimeRule) (now : Nat) (m : Bool) :
    (ruleGate r now m).1.lastConditionState = m := by
  unfold ruleGate
  split_ifs <;> (try simp_all) <;> (try split) <;> simp_all

theorem ruleGate_lastChange (r : RuntimeRule) (now : Nat) (m : Bool) :
    (ruleGate r now m).1.lastConditionChangeMs =
      if m = r.lastConditionState then r.lastConditionChangeMs else now := by
  unfold ruleGate
  split_ifs <;> (try simp_all) <;> (try split) <;> simp_all

theorem ruleGate_lastTrigger (r : RuntimeRule) (now : Nat) (m : Bool) :
    (ruleGate r now m).1.lastTriggerMs =
      if (ruleGate r now m).2 then now else r.lastTriggerMs := by
  unfold ruleGate
  split_ifs <;> (try simp_all) <;> (try split) <;> simp_all

theorem ruleGate_timing_fields (r : RuntimeRule) (now : Nat) (m : Bool) :
    (ruleGate r now m).1.debounceMs = r.debounceMs ∧
    (ruleGate r now m).1.cooldownMs = r.cooldownMs := by
  unfold ruleGate
  split_ifs <;> (try simp_all) <;> (try split) <;> simp_all

theorem ruleGate_fired (r : RuntimeRule) (now : Nat) (m : Bool)
    (h : (ruleGate r now m).2 = true) :
    m = true ∧
    r.debounceMs ≤
      u32sub now (if m = r.lastConditionState then r.lastConditionChangeMs else now) ∧
    r.cooldownMs ≤ u32sub now r.lastTriggerMs := by
  unfold ruleGate at h
  split_ifs at h <;> (try simp_all) <;> (try split at h) <;> simp_all

theorem ruleRun_cons (r : RuntimeRule) (t : Nat) (m : Bool) (rest : List (Nat × Bool)) :
    ruleRun r ((t, m) :: rest) =
      ((ruleRun (ruleGate r t m).1 rest).1,
        (ruleGate r t m).2 :: (ruleRun (ruleGate r t m).1 rest).2) := by
  cases hg : ruleGate r t m with
  | mk r1 fired =>
    cases hr : ruleRun r1 rest with
    | mk rf flags => simp [ruleRun, hg, hr]

theorem ruleRun_flags_length (r : RuntimeRule) (tr : List (Nat × Bool)) :
    (ruleRun r tr).2.length = tr.length := by
  induction tr generalizing r with
  | nil => rfl
  | cons x rest ih =>
    obtain ⟨t, m⟩ := x
    rw [ruleRun_cons]
    simp [ih]

theorem ruleRun_append (r : RuntimeRule) (pre post : List (Nat × Bool)) :
    ruleRun r (pre ++ post) =
      ((ruleRun (ruleRun r pre).1 post).1,
        (ruleRun r pre).2 ++ (ruleRun (ruleRun r pre).1 post).2) := by
  induction pre generalizing r with
  | nil => simp [ruleRun]
  | cons x rest ih =>
    obtain ⟨t, m⟩ := x
    rw [List.cons_append, ruleRun_cons, ruleRun_cons, ih]
    simp

theorem getD_take {α : Type} (l : List α) (j i : Nat) (d : α) (h : i < j) :
    (l.take j).getD i d = l.getD i d := by
  rcases Nat.lt_or_ge i l.length with hi | hi
  · have h1 : i < (l.take j).length := by simp; omega
    rw [List.getD_eq_getElem _ _ h1, List.getD_eq_getElem _ _ hi, List.getElem_take]
  · have h1 : (l.take j).length ≤ i := by simp; omega
    rw [List.getD_eq_default _ _ h1, List.getD_eq_default _ _ hi]

theorem take_succ_getD {α : Type} (l : List α) (j : Nat) (h : j < l.length) (d : α) :
    l.take (j + 1) = l.take j ++ [l.getD j d] := by
  rw [List.take_succ, List.getD_eq_getElem _ _ h]
  simp [List.getElem?_eq_getElem h]

theorem traceTime_take (tr : List (Nat × Bool)) (j i : Nat) (h : i < j) :
    traceTime (tr.take j) i = traceTime tr i := by
  unfold traceTime
  rw [getD_take _ _ _ _ h]

theorem traceMet_take (tr : List (Nat × Bool)) (j i : Nat) (h : i < j) :
    traceMet (tr.take j) i = traceMet tr i := by
  unfold traceMet
  rw [getD_take _ _ _ _ h]

theorem traceTime_append_left (pre post : List (Nat × Bool)) (i : Nat)
    (h : i < pre.length) : traceTime (pre ++ post) i = traceTime pre i := by
  unfold traceTime
  rw [List.getD_append _ _ _ _ h]

theorem traceMet_append_left (pre post : List (Nat × Bool)) (i : Nat)
    (h : i < pre.length) : traceMet (pre ++ post) i = traceMet pre i := by
  unfold traceMet
  rw [List.getD_append _ _ _ _ h]

theorem traceTime_append_last (pre : List (Nat × Bool)) (x : Nat × Bool) :
    traceTime (pre ++ [x]) pre.length = x.1 := by
  unfold traceTime
  rw [List.getD_append_right _ _ _ _ (le_refl _)]
  simp

theorem traceMet_append_last (pre : List (Nat × Bool)) (x : Nat × Bool) :
    traceMet (pre ++ [x]) pre.length = x.2 := by
  unfold traceMet
  rw [List.getD_append_right _ _ _ _ (le_refl _)]
  simp

theorem traceMono_le {tr : List (Nat × Bool)} (h : TraceMono tr) {i j : Nat}
    (hij : i ≤ j) (hj : j < tr.length) : traceTime tr i ≤ traceTime tr j := by
  rcases Nat.eq_or_lt_of_le hij with rfl | hlt
  · exact le_refl _
  · have hi : i < tr.length := lt_trans hlt hj
    have hp := (List.pairwise_iff_get.mp h) ⟨i, hi⟩ ⟨j, hj⟩ hlt
    unfold traceTime
    rw [List.getD_eq_getElem _ _ hi, List.getD_eq_getElem _ _ hj]
    simpa using hp

theorem traceBounded_lt {tr : List (Nat × Bool)} (h : TraceBounded tr) {i : Nat}
    (hi : i < tr.length) : traceTime tr i < U32 := by
  unfold traceTime
  rw [List.getD_eq_getElem _ _ hi]
  exact h _ (List.getElem_mem hi)

theorem traceMono_take {tr : List (Nat × Bool)} (h : TraceMono tr) (j : Nat) :
    TraceMono (tr.take j) :=
  List.Pairwise.sublist (List.take_sublist j tr) h

theorem traceBounded_take {tr : List (Nat × Bool)} (h : TraceBounded tr) (j : Nat) :
    TraceBounded (tr.take j) :=
  fun p hp => h p (List.mem_of_mem_take hp)

/-- The gate maintains both rule-state invariants along any monotone,
`uint32_t`-bounded trace from the installed state. -/
theorem rule_invariants (mask start count D C : Nat) (pre : List (Nat × Bool)) :
    TraceMono pre → TraceBounded pre →
    InvTrig (ruleRun (installedRule mask start count D C) pre).1 pre
        (ruleRun (installedRule mask start count D C) pre).2 ∧
      InvChange (ruleRun (installedRule mask start count D C) pre).1 pre := by
  induction pre using List.reverseRecOn with
  | nil =>
    intro _ _
    constructor
    · left
      exact ⟨rfl, fun k => rfl⟩
    · left
      exact ⟨rfl, rfl, fun l hl => absurd hl (by simp [ruleRun])⟩
  | append_singleton pre x ih =>
    intro hm hb
    obtain ⟨t, m⟩ := x
    have hm' : TraceMono pre := List.Pairwise.sublist (List.sublist_append_left pre _) hm
    have hb' : TraceBounded pre := fun p hp => hb p (List.mem_append_left _ hp)
    obtain ⟨hT, hC⟩ := ih hm' hb'
    rw [ruleRun_append]
    have hsingle : ∀ s : RuntimeRule, ruleRun s [(t, m)] =
        ((ruleGate s t m).1, [(ruleGate s t m).2]) := by
      intro s
      rw [ruleRun_cons]
      rfl
    rw [hsingle]
    have hlen : (ruleRun (installedRule mask start count D C) pre).2.length = pre.length :=
      ruleRun_flags_length _ _
    constructor
    · -- InvTrig
      by_cases hf :
          (ruleGate (ruleRun (installedRule mask start count D C) pre).1 t m).2 = true
      · right
        refine ⟨pre.length, by simp, ?_, ?_, ?_⟩
        · rw [List.getD_append_right _ _ _ _ (le_of_eq hlen)]
          simp [hlen, hf]
        · rw [ruleGate_lastTrigger, if_pos (by simpa using hf), traceTime_append_last]
        · intro l hl
          rw [List.getD_eq_default]
          simp
          omega
      · have hf' :
            (ruleGate (ruleRun (installedRule mask start count D C) pre).1 t m).2 = false := by
          revert hf
          cases (ruleGate (ruleRun (installedRule mask start count D C) pre).1 t m).2 <;> simp
        rcases hT with ⟨htr, hall⟩ | ⟨k, hk, hfl, htr, hafter⟩
        · left
          refine ⟨?_, ?_⟩
          · rw [ruleGate_lastTrigger, if_neg (by simp [hf']), htr]
          · intro k
            rcases Nat.lt_or_ge k
                (ruleRun (installedRule mask start count D C) pre).2.length with h | h
            · rw [List.getD_append _ _ _ _ h]
              exact hall k
            · rcases Nat.eq_or_lt_of_le h with heq | hgt
              · rw [List.getD_append_right _ _ _ _ (le_of_eq heq), ← heq]
                simpa using hf'
              · rw [List.getD_eq_default]
                simp
                omega
        · right
          refine ⟨k, by simp; omega, ?_, ?_, ?_⟩
          · rw [List.getD_append _ _ _ _ (by omega : k <
              (ruleRun (installedRule mask start count D C) pre).2.length)]
            exact hfl
          · rw [ruleGate_lastTrigger, if_neg (by simp [hf']), htr,
              traceTime_append_left _ _ _ hk]
          · intro l hkl
            rcases Nat.lt_or_ge l
                (ruleRun (installedRule mask start count D C) pre).2.length with h | h
            · rw [List.getD_append _ _ _ _ h]
              exact hafter l hkl
            · rcases Nat.eq_or_lt_of_le h with heq | hgt
              · rw [List.getD_append_right _ _ _ _ (le_of_eq heq), ← heq]
                simpa using hf'
              · rw [List.getD_eq_default]
                simp
                omega
    · -- InvChange
      by_cases hms :
          m = (ruleRun (installedRule mask start count D C) pre).1.lastConditionState
      · rcases hC with ⟨hst, hch, hall⟩ | ⟨c, hc, hch, hall⟩
        · left
          refine ⟨?_, ?_, ?_⟩
          · rw [ruleGate_lastConditionState, hms, hst]
          · rw [ruleGate_lastChange, if_pos hms, hch]
          · intro l hl
            rcases Nat.lt_or_ge l pre.length with h | h
            · rw [traceMet_append_left _ _ _ h]
              exact hall l h
            · have hleq : l = pre.length := by
                simp at hl
                omega
              subst hleq
              rw [traceMet_append_last]
              rw [hms, hst]
        · right
          refine ⟨c, by simp; omega, ?_, ?_⟩
          · rw [ruleGate_lastChange, if_pos hms, hch, traceTime_append_left _ _ _ hc]
          · intro l hcl hl
            rw [ruleGate_lastConditionState]
            rcases Nat.lt_or_ge l pre.length with h | h
            · rw [traceMet_append_left _ _ _ h, hall l hcl h]
              exact hms.symm
            · have hleq : l = pre.length := by
                simp at hl
                omega
              subst hleq
              rw [traceMet_append_last]
      · right
        refine ⟨pre.length, by simp, ?_, ?_⟩
        · rw [ruleGate_lastChange, if_neg hms, traceTime_append_last]
        · intro l hcl hl
          have hleq : l = pre.length := by
            simp at hl
            omega
          subst hleq
          rw [traceMet_append_last, ruleGate_lastConditionState]

theorem ruleRun_fields (r : RuntimeRule) (tr : List (Nat × Bool)) :
    (ruleRun r tr).1.debounceMs = r.debounceMs ∧
    (ruleRun r tr).1.cooldownMs = r.cooldownMs := by
  induction tr generalizing r with
  | nil => exact ⟨rfl, rfl⟩
  | cons x rest ih =>
    obtain ⟨t, m⟩ := x
    rw [ruleRun_cons]
    obtain ⟨h1, h2⟩ := ih (ruleGate r t m).1
    obtain ⟨g1, g2⟩ := ruleGate_timing_fields r t m
    exact ⟨h1.trans g1, h2.trans g2⟩

/-- What a fire at the sample after `pre` guarantees about `pre`: the sample
held, every sample of the last `D` milliseconds held, and every earlier fire
lies at least `C` milliseconds in the past. -/
theorem fire_props (mask start count D C : Nat) (pre : List (Nat × Bool)) (t : Nat)
    (m : Bool) (hm : TraceMono (pre ++ [(t, m)])) (hb : TraceBounded (pre ++ [(t, m)]))
    (hfire : (ruleGate (ruleRun (installedRule mask start count D C) pre).1 t m).2 = true) :
    m = true ∧
    (∀ i, i < pre.length → t < traceTime pre i + D → traceMet pre i = true) ∧
    (∀ k, k < pre.length →
      (ruleRun (installedRule mask start count D C) pre).2.getD k false = true →
      traceTime pre k + C ≤ t) := by
  have hm' : TraceMono pre := List.Pairwise.sublist (List.sublist_append_left pre _) hm
  have hb' : TraceBounded pre := fun p hp => hb p (List.mem_append_left _ hp)
  obtain ⟨hT, hC⟩ := rule_invariants mask start count D C pre hm' hb'
  obtain ⟨hmt, hdeb, hcool⟩ := ruleGate_fired _ _ _ hfire
  have ht32 : t < U32 := hb (t, m) (List.mem_append_right _ (List.mem_singleton_self _))
  have hDD : (ruleRun (installedRule mask start count D C) pre).1.debounceMs = D :=
    (ruleRun_fields _ _).1
  have hCC : (ruleRun (installedRule mask start count D C) pre).1.cooldownMs = C :=
    (ruleRun_fields _ _).2
  have hlast : ∀ i, i < pre.length → traceTime pre i ≤ t := by
    intro i hi
    have h1 := traceMono_le hm (Nat.le_of_lt hi) (by simp)
    rw [traceTime_append_left _ _ _ hi, traceTime_append_last] at h1
    exact h1
  refine ⟨hmt, ?_, ?_⟩
  · intro i hi hlt
    by_cases hms :
        m = (ruleRun (installedRule mask start count D C) pre).1.lastConditionState
    · rw [if_pos hms] at hdeb
      rcases hC with ⟨hst, hch, hall⟩ | ⟨c, hc, hch, hall⟩
      · rw [hst] at hms
        rw [hmt] at hms
        exact Bool.noConfusion hms
      · have htc_le : traceTime pre c ≤ t := hlast c hc
        have htc32 : traceTime pre c < U32 := traceBounded_lt hb' hc
        rw [hch, u32sub_eq_sub htc_le ht32, hDD] at hdeb
        have h2 : traceTime pre c < traceTime pre i := by omega
        have h3 : c < i := by
          by_contra hcon
          push_neg at hcon
          exact absurd (traceMono_le hm' hcon hc) (by omega)
        rw [hall i (le_of_lt h3) hi, ← hms]
        exact hmt
    · rw [if_neg hms] at hdeb
      have hz : u32sub t t = 0 := by
        rw [u32sub_eq_sub (le_refl t) ht32]
        omega
      rw [hz, hDD] at hdeb
      have := hlast i hi
      omega
  · intro k hk hflag
    rcases hT with ⟨htr, hall⟩ | ⟨k0, hk0, hfl0, htr0, hafter⟩
    · rw [hall k] at hflag
      exact Bool.noConfusion hflag
    · have hkk0 : k ≤ k0 := by
        by_contra hcon
        push_neg at hcon
        rw [hafter k hcon] at hflag
        exact Bool.noConfusion hflag
      have ht0le : traceTime pre k0 ≤ t := hlast k0 hk0
      have ht032 : traceTime pre k0 < U32 := traceBounded_lt hb' hk0
      rw [htr0, u32sub_eq_sub ht0le ht32, hCC] at hcool
      have := traceMono_le hm' hkk0 hk0
      omega

theorem firedAt_oob (r : RuntimeRule) (tr : List (Nat × Bool)) (j : Nat)
    (h : tr.length ≤ j) : firedAt r tr j = false := by
  unfold firedAt
  rw [List.getD_eq_default]
  rw [ruleRun_flags_length]
  exact h

/-- The fired flag at sample `j` is the gate's verdict on the state reached
after the first `j` samples. -/
theorem firedAt_eq (mask start count D C : Nat) (tr : List (Nat × Bool)) (j : Nat)
    (hj : j < tr.length) :
    firedAt (installedRule mask start count D C) tr j =
      (ruleGate (ruleRun (installedRule mask start count D C) (tr.take j)).1
        (traceTime tr j) (traceMet tr j)).2 := by
  have hsplit : tr = tr.take j ++ tr.getD j (0, false) :: tr.drop (j + 1) := by
    conv_lhs => rw [← List.take_append_drop j tr]
    congr 1
    rw [List.getD_eq_getElem _ _ hj]
    exact List.drop_eq_getElem_cons hj
  have hlen : (ruleRun (installedRule mask start count D C) (tr.take j)).2.length = j := by
    rw [ruleRun_flags_length]
    simp
    omega
  unfold firedAt
  conv_lhs => rw [hsplit]
  rw [show tr.getD j (0, false) = (traceTime tr j, traceMet tr j) from rfl, ruleRun_append,
    ruleRun_cons]
  rw [List.getD_append_right _ _ _ _ (le_of_eq hlen)]
  simp [hlen]

/-- The fired flags of a trace prefix agree with those of the whole trace. -/
theorem firedAt_take (r : RuntimeRule) (tr : List (Nat × Bool)) (i j : Nat)
    (hij : i < j) :
    (ruleRun r (tr.take j)).2.getD i false = firedAt r tr i := by
  rcases Nat.lt_or_ge j tr.length with hj | hj
  · unfold firedAt
    conv_rhs => rw [← List.take_append_drop j tr]
    rw [ruleRun_append, List.getD_append]
    rw [ruleRun_flags_length]
    simp
    omega
  · rw [List.take_of_length_le hj]
    rfl

theorem ruleRun_single (s : RuntimeRule) (t : Nat) (m : Bool) :
    ruleRun s [(t, m)] = ((ruleGate s t m).1, [(ruleGate s t m).2]) := by
  rw [ruleRun_cons]
  rfl

theorem lastChangeIdx_mem (tr : List (Nat × Bool)) (j f : Nat)
    (h : lastChangeIdx tr j = some f) : f ≤ j ∧ changeAt tr f = true := by
  unfold lastChangeIdx at h
  have hm := List.mem_of_mem_getLast? h
  rw [List.mem_filter] at hm
  obtain ⟨hr, hc⟩ := hm
  rw [List.mem_range] at hr
  exact ⟨by omega, hc⟩

theorem lastChangeIdx_self (tr : List (Nat × Bool)) (j : Nat)
    (h : changeAt tr j = true) : lastChangeIdx tr j = some j := by
  unfold lastChangeIdx
  rw [List.range_succ, List.filter_append]
  have hf : List.filter (fun l => changeAt tr l) [j] = [j] := by
    simp [h]
  rw [hf, List.getLast?_concat]

/-- The gate's condition state after the first `j` samples is the value of
sample `j - 1` (its installed value `false` when `j = 0`). -/
theorem ruleRun_take_lastState (mask start count D C : Nat) (tr : List (Nat × Bool))
    (j : Nat) (hj : j < tr.length) :
    (ruleRun (installedRule mask start count D C) (tr.take j)).1.lastConditionState =
      if j = 0 then false else traceMet tr (j - 1) := by
  cases j with
  | zero => rfl
  | succ n =>
    rw [if_neg (by omega)]
    have hn : n < tr.length := by omega
    rw [take_succ_getD tr n hn (0, false), ruleRun_append,
      show tr.getD n (0, false) = (traceTime tr n, traceMet tr n) from rfl,
      ruleRun_single]
    show (ruleGate (ruleRun (installedRule mask start count D C) (tr.take n)).1
        (traceTime tr n) (traceMet tr n)).1.lastConditionState = traceMet tr n
    exact ruleGate_lastConditionState _ _ _

/-- A fire at sample `j` happens at least `debounceMs` past the clock of
the last condition-state change: the `now - lastConditionChangeMs ≥
debounce_ms` guard, with `lastConditionChangeMs` related to the trace. -/
theorem fire_change (mask start count D C : Nat) (tr : List (Nat × Bool)) (j : Nat)
    (hm : TraceMono tr) (hb : TraceBounded tr) (hj : j < tr.length)
    (hfire : firedAt (installedRule mask start count D C) tr j = true) :
    lastChangeTime tr j + D ≤ traceTime tr j := by
  rw [firedAt_eq mask start count D C tr j hj] at hfire
  have hm' : TraceMono (tr.take j) := traceMono_take hm j
  have hb' : TraceBounded (tr.take j) := traceBounded_take hb j
  have hprelen : (tr.take j).length = j := by
    simp
    omega
  obtain ⟨-, hC⟩ := rule_invariants mask start count D C (tr.take j) hm' hb'
  obtain ⟨hmt, hdeb, -⟩ := ruleGate_fired _ _ _ hfire
  have hDD : (ruleRun (installedRule mask start count D C) (tr.take j)).1.debounceMs = D :=
    (ruleRun_fields _ _).1
  have ht32 : traceTime tr j < U32 := traceBounded_lt hb hj
  by_cases hms : traceMet tr j =
      (ruleRun (installedRule mask start count D C) (tr.take j)).1.lastConditionState
  · rw [if_pos hms, hDD] at hdeb
    rcases hC with ⟨hst, hch, hall⟩ | ⟨c, hc, hch, hall⟩
    · rw [hst] at hms
      rw [hmt] at hms
      exact Bool.noConfusion hms
    · have hcj : c < j := by
        rw [hprelen] at hc
        exact hc
      have htc_eq : traceTime (tr.take j) c = traceTime tr c := traceTime_take tr j c hcj
      have htcle : traceTime tr c ≤ traceTime tr j := traceMono_le hm (le_of_lt hcj) hj
      rw [hch, htc_eq, u32sub_eq_sub htcle ht32] at hdeb
      have hflip : ∀ f, f ≤ j → changeAt tr f = true → f ≤ c := by
        intro f hfj hcf
        by_contra hcon
        push_neg at hcon
        have hf1 : f ≠ 0 := by omega
        unfold changeAt at hcf
        rw [if_neg hf1] at hcf
        have hm1 : traceMet tr (f - 1) =
            (ruleRun (installedRule mask start count D C) (tr.take j)).1.lastConditionState := by
          have h1 := hall (f - 1) (by omega) (by rw [hprelen]; omega)
          rw [traceMet_take tr j (f - 1) (by omega)] at h1
          exact h1
        have hmf : traceMet tr f =
            (ruleRun (installedRule mask start count D C) (tr.take j)).1.lastConditionState := by
          rcases Nat.eq_or_lt_of_le hfj with rfl | hlt
          · exact hms
          · have h1 := hall f (by omega) (by rw [hprelen]; omega)
            rw [traceMet_take tr j f hlt] at h1
            exact h1
        rw [hmf, hm1] at hcf
        simp at hcf
      unfold lastChangeTime
      cases hidx : lastChangeIdx tr j with
      | none =>
        show 0 + D ≤ traceTime tr j
        omega
      | some f =>
        obtain ⟨hfj, hcf⟩ := lastChangeIdx_mem tr j f hidx
        have hfc : f ≤ c := hflip f hfj hcf
        have hle2 : traceTime tr f ≤ traceTime tr c :=
          traceMono_le hm hfc (lt_trans hcj hj)
        show traceTime tr f + D ≤ traceTime tr j
        omega
  · rw [if_neg hms, hDD, u32sub_eq_sub (le_refl _) ht32] at hdeb
    have hcj : changeAt tr j = true := by
      unfold changeAt
      by_cases hj0 : j = 0
      · subst hj0
        rw [if_pos rfl]
        have hst : (ruleRun (installedRule mask start count D C)
            (tr.take 0)).1.lastConditionState = false := rfl
        rw [hst] at hms
        cases h0 : traceMet tr 0
        · exact absurd h0 hms
        · rfl
      · rw [if_neg hj0]
        have hst := ruleRun_take_lastState mask start count D C tr j hj
        rw [if_neg hj0] at hst
        rw [hst] at hms
        exact bne_iff_ne.mpr hms
    unfold lastChangeTime
    rw [lastChangeIdx_self tr j hcj]
    show traceTime tr j + D ≤ traceTime tr j
    omega

/-- C4: debounce and cooldown gating.  For every rule installed with
`debounce_ms = D` and `cooldown_ms = C`, over any sampled sequence of
`evaluateRules` calls with non-decreasing `uint32_t` clocks:
(i) the rule fires only at a sample where its AND-group held;
(ii) when it fires at clock `t`, every sample taken within the last `D`
milliseconds had the AND-group true, so the group has been continuously
true for at least `D` ms at the sampling grain;
(iii) once it fires at clock `t`, it does not fire again strictly before
`t + C`, even if the conditions remain true;
(iv) it never fires before `D` milliseconds have passed since the clock of
the last condition-state change (the last sample whose AND-group value
differed from the previous state, the installed value 0 when the state
never changed) — so no action executes earlier than change + `D`.
Further, (v) on firing the gate sets `last_trigger_ms` to the current
clock, and (vi) one `evaluateRules` call grows the `rulesTriggered_`
counter by exactly the number of rules that fired. -/
theorem claim_C4 :
    (∀ (mask start count D C : Nat) (tr : List (Nat × Bool)),
      TraceMono tr → TraceBounded tr →
      (∀ j, firedAt (installedRule mask start count D C) tr j = true →
        traceMet tr j = true) ∧
      (∀ i j, i ≤ j → j < tr.length →
        firedAt (installedRule mask start count D C) tr j = true →
        traceTime tr j < traceTime tr i + D → traceMet tr i = true) ∧
      (∀ i j, i < j → j < tr.length →
        firedAt (installedRule mask start count D C) tr i = true →
        firedAt (installedRule mask start count D C) tr j = true →
        traceTime tr i + C ≤ traceTime tr j) ∧
      (∀ j, j < tr.length →
        firedAt (installedRule mask start count D C) tr j = true →
        lastChangeTime tr j + D ≤ traceTime tr j))
    ∧ (∀ (r : RuntimeRule) (now : Nat) (m : Bool) (r' : RuntimeRule),
        ruleGate r now m = (r', true) → r'.lastTriggerMs = now)
    ∧ (∀ (e : EngineState) (now : Nat),
        (evaluateRules e now).1.rulesTriggered = e.rulesTriggered + firedCount e now) := by
  refine ⟨?_, ?_, ?_⟩
  · intro mask start count D C tr hmono hbound
    have hside : ∀ j, j < tr.length →
        TraceMono (tr.take j ++ [(traceTime tr j, traceMet tr j)]) ∧
        TraceBounded (tr.take j ++ [(traceTime tr j, traceMet tr j)]) := by
      intro j hj
      rw [show ((traceTime tr j, traceMet tr j) : Nat × Bool) = tr.getD j (0, false) from rfl,
        ← take_succ_getD tr j hj]
      exact ⟨traceMono_take hmono (j + 1), traceBounded_take hbound (j + 1)⟩
    have hfires : ∀ j, firedAt (installedRule mask start count D C) tr j = true →
        j < tr.length := by
      intro j hf
      by_contra hcon
      push_neg at hcon
      rw [firedAt_oob _ _ _ hcon] at hf
      exact Bool.noConfusion hf
    refine ⟨?_, ?_, ?_, ?_⟩
    · intro j hf
      have hj := hfires j hf
      rw [firedAt_eq mask start count D C tr j hj] at hf
      exact (fire_props mask start count D C (tr.take j) (traceTime tr j) (traceMet tr j)
        (hside j hj).1 (hside j hj).2 hf).1
    · intro i j hij hj hf hlt
      rcases Nat.eq_or_lt_of_le hij with rfl | hstrict
      · have hj' := hfires i hf
        rw [firedAt_eq mask start count D C tr i hj'] at hf
        exact (fire_props mask start count D C (tr.take i) (traceTime tr i) (traceMet tr i)
          (hside i hj').1 (hside i hj').2 hf).1
      · rw [firedAt_eq mask start count D C tr j hj] at hf
        have props := fire_props mask start count D C (tr.take j) (traceTime tr j)
          (traceMet tr j) (hside j hj).1 (hside j hj).2 hf
        have hi' : i < (tr.take j).length := by
          simp
          omega
        have h2 := props.2.1 i hi'
          (by rw [traceTime_take _ _ _ hstrict]; exact hlt)
        rw [traceMet_take _ _ _ hstrict] at h2
        exact h2
    · intro i j hij hj hfi hfj
      rw [firedAt_eq mask start count D C tr j hj] at hfj
      have props := fire_props mask start count D C (tr.take j) (traceTime tr j)
        (traceMet tr j) (hside j hj).1 (hside j hj).2 hfj
      have hi' : i < (tr.take j).length := by
        simp
        omega
      have h2 := props.2.2 i hi' (by rw [firedAt_take _ _ _ _ hij]; exact hfi)
      rw [traceTime_take _ _ _ hij] at h2
      exact h2
    · intro j hj hf
      exact fire_change mask start count D C tr j hmono hbound hj hf
  · intro r now m r' h
    have h2 : (ruleGate r now m).2 = true := by rw [h]
    have h1 : (ruleGate r now m).1 = r' := by rw [h]
    rw [← h1, ruleGate_lastTrigger, if_pos (by simpa using h2)]
  · intro e now
    unfold evaluateRules firedCount
    rcases haux : evaluateRulesAux e.signals e.actions.length now e.conditions e.rules
      with ⟨conds, rules, ex, k⟩
    rfl

/-- Witness for C4: rule with `D = 10`, `C = 20`, sampled at clocks
0, 5, 10, 35 with the conditions always true; the rule fires at clock 35
(sample 3), a sample where the conditions held, at least 10 ms past the
only condition-state change (sample 0, clock 0). -/
theorem claim_C4_witness :
    (3 ≤ 3 ∧ 3 < 4 ∧
      firedAt (installedRule 0 0 1 10 20)
        [(0, true), (5, true), (10, true), (35, true)] 3 = true ∧
      traceTime [(0, true), (5, true), (10, true), (35, true)] 3 <
        traceTime [(0, true), (5, true), (10, true), (35, true)] 3 + 10) ∧
    traceMet [(0, true), (5, true), (10, true), (35, true)] 3 = true ∧
    lastChangeTime [(0, true), (5, true), (10, true), (35, true)] 3 + 10 ≤
      traceTime [(0, true), (5, true), (10, true), (35, true)] 3 :=
  ⟨⟨le_refl 3, by decide, by decide, by decide⟩,
    (claim_C4.1 0 0 1 10 20 [(0, true), (5, true), (10, true), (35, true)]
      (by decide) (by decide)).2.1 3 3 (le_refl 3) (by decide) (by decide) (by decide),
    (claim_C4.1 0 0 1 10 20 [(0, true), (5, true), (10, true), (35, true)]
      (by decide) (by decide)).2.2.2 3 (by decide) (by decide)⟩

/-! ## C7: OTA full-path finalization -/

theorem crc32_le_nil {c : Nat} (hc : c < U32) : crc32_le c [] = c := by
  unfold crc32_le
  rw [List.foldl_nil, Nat.mod_eq_of_lt hc, Nat.xor_assoc, Nat.xor_self, Nat.xor_zero]

/-- Characterization of a full-path receive phase that stays within the
declared size: every chunk write succeeds, the byte count accumulates and
the running CRC is the CRC of the concatenated chunks seeded by the previous
running CRC. -/
theorem otaRun_eq (chunks : List (List Nat)) (s : OTAState)
    (hst : s.status = .RECEIVING) (hd : s.isDelta = false)
    (hc : s.calculatedCRC < U32)
    (hb : s.receivedBytes + (chunks.map List.length).sum ≤ s.expectedSize) :
    otaRun s chunks =
      { s with
          receivedBytes := s.receivedBytes + (chunks.map List.length).sum,
          calculatedCRC := crc32_le s.calculatedCRC chunks.flatten } := by
  induction chunks generalizing s with
  | nil =>
    simp only [otaRun, List.foldl_nil, List.map_nil, List.sum_nil, Nat.add_zero,
      List.flatten_nil, crc32_le_nil hc]
  | cons c rest ih =>
    let s' : OTAState :=
      { s with
          receivedBytes := s.receivedBytes + c.length,
          calculatedCRC := crc32_le s.calculatedCRC c }
    have hw : writeFirmwareChunk s c = (s', true) := by
      unfold writeFirmwareChunk
      rw [if_neg (by simp [hst, hd]), if_neg (by simp at hb ⊢; omega)]
    have hw1 : (writeFirmwareChunk s c).1 = s' := by rw [hw]
    have hrest := ih s' hst hd (crc32_le_lt _ _) (by simp at hb ⊢; omega)
    have hstep : otaRun s (c :: rest) = otaRun (writeFirmwareChunk s c).1 rest := rfl
    rw [hstep, hw1, hrest]
    simp only [List.map_cons, List.sum_cons, List.flatten_cons, crc32_le_append, Nat.add_assoc]

/-- C7: OTA full-path finalization.  For a full session opened in the idle
state with declared size `N` and CRC `C`:
(A) while the received total stays within `N`, every chunk write succeeds and
the session accumulates the byte count and the running CRC of the
concatenated chunks;
(B) receiving exactly `N` bytes whose CRC-32 is `C` makes finalize succeed
with state `SUCCESS`;
(C) receiving fewer than `N` bytes makes finalize fail with `ERROR_SPACE`;
(D) receiving `N` bytes whose CRC differs from `C` makes finalize fail with
`ERROR_CRC`;
(E) any chunk write that would push the received byte count past the
declared size fails the session with `ERROR_SPACE`. -/
theorem claim_C7 (p N C : Nat) (chunks : List (List Nat)) (s1 sN : OTAState)
    (hstart : startFirmwareUpdate { partitionSize := p } N C = (s1, true))
    (hrun : sN = otaRun s1 chunks) :
    ((chunks.map List.length).sum ≤ N →
      sN.receivedBytes = (chunks.map List.length).sum ∧
      sN.calculatedCRC = crc32_le 0 chunks.flatten ∧
      sN.status = .RECEIVING)
    ∧ ((chunks.map List.length).sum = N → crc32_le 0 chunks.flatten = C →
      finalizeFirmwareUpdate sN = ({ sN with status := .SUCCESS }, true))
    ∧ ((chunks.map List.length).sum < N →
      finalizeFirmwareUpdate sN = ({ sN with status := .ERROR_SPACE }, false))
    ∧ ((chunks.map List.length).sum = N → crc32_le 0 chunks.flatten ≠ C →
      finalizeFirmwareUpdate sN = ({ sN with status := .ERROR_CRC }, false))
    ∧ (∀ s chunk, s.status = .RECEIVING → s.isDelta = false →
        s.expectedSize < s.receivedBytes + List.length chunk →
        writeFirmwareChunk s chunk = ({ s with status := .ERROR_SPACE }, false)) := by
  have hp : ¬ p < N := by
    by_contra hlt
    rw [startFirmwareUpdate, if_neg (by simp), if_pos hlt] at hstart
    exact Bool.noConfusion (congrArg Prod.snd hstart)
  have hs1 : s1 = otaReceiving p N C := by
    rw [startFirmwareUpdate, if_neg (by simp), if_neg hp] at hstart
    exact (congrArg Prod.fst hstart).symm
  have hchar : (chunks.map List.length).sum ≤ N → sN = otaReceived p N C chunks := by
    intro htot
    rw [hrun, hs1, otaRun_eq chunks _ rfl rfl (by norm_num [U32, otaReceiving])
      (by simpa [otaReceiving] using htot)]
    simp [otaReceiving, otaReceived]
  refine ⟨?_, ?_, ?_, ?_, ?_⟩
  · intro htot
    rw [hchar htot]
    exact ⟨rfl, rfl, rfl⟩
  · intro htot hcrc
    rw [hchar (le_of_eq htot)]
    unfold finalizeFirmwareUpdate
    rw [if_neg (by simp [otaReceived]), if_neg (by simp [otaReceived]; omega),
      if_neg (by simp only [otaReceived]; simpa using hcrc)]
  · intro htot
    rw [hchar (le_of_lt htot)]
    unfold finalizeFirmwareUpdate
    rw [if_neg (by simp [otaReceived]), if_pos (by simp [otaReceived]; omega)]
  · intro htot hcrc
    rw [hchar (le_of_eq htot)]
    unfold finalizeFirmwareUpdate
    rw [if_neg (by simp [otaReceived]), if_neg (by simp [otaReceived]; omega),
      if_pos (by simp only [otaReceived]; simpa using hcrc)]
  · intro s chunk hst hd hover
    unfold writeFirmwareChunk
    rw [if_neg (by simp [hst, hd]), if_pos hover]

/-- Witness for C7: a 10-byte partition, `N = 4`, `C` the CRC-32 of
`[1, 2, 3, 4]`, sent as the chunks `[1, 2]` and `[3, 4]`; finalize succeeds
with `SUCCESS`. -/
theorem claim_C7_witness :
    finalizeFirmwareUpdate
        (otaRun (startFirmwareUpdate { partitionSize := 10 } 4 (crc32_le 0 [1, 2, 3, 4])).1
          [[1, 2], [3, 4]]) =
      ({ otaRun (startFirmwareUpdate { partitionSize := 10 } 4 (crc32_le 0 [1, 2, 3, 4])).1
          [[1, 2], [3, 4]] with status := .SUCCESS }, true) :=
  (claim_C7 10 4 (crc32_le 0 [1, 2, 3, 4]) [[1, 2], [3, 4]]
      (startFirmwareUpdate { partitionSize := 10 } 4 (crc32_le 0 [1, 2, 3, 4])).1
      (otaRun (startFirmwareUpdate { partitionSize := 10 } 4 (crc32_le 0 [1, 2, 3, 4])).1
        [[1, 2], [3, 4]])
      (by decide) rfl).2.1 (by decide) (by decide)

/-! ## C8: the fourth status-frame field -/

set_option maxRecDepth 1000000 in
/-- C8 counterexample.  Installing `bufDupCanIds` (two signals sharing CAN
id 1) and building the status frame: the code sends the signal count (2) in
the fourth field, while the claim's frame carries the number of distinct CAN
ids (1). -/
theorem claim_C8_counterexample :
    (loadRuleset engineInit bufDupCanIds).2 = true ∧
    sendStatus 1 dupIdEngine 100 7 = "S:1:2:0:2:100:7" ∧
    sendStatusSpecUniqueIds 1 dupIdEngine 100 7 = "S:1:2:0:1:100:7" ∧
    sendStatus 1 dupIdEngine 100 7 ≠ sendStatusSpecUniqueIds 1 dupIdEngine 100 7 := by
  decide

/-- C8 (amended): the fourth numeric field of the status frame is the signal
count — the source comments it "Unique CAN IDs (simplified)" — so the frame
coincides with the claim's unique-CAN-id frame exactly on rulesets whose
signals carry pairwise distinct CAN ids. -/
theorem claim_C8 (rulesMode : Nat) (e : EngineState) (now bootCount : Nat)
    (h : (e.signals.map (fun s => s.canId)).Nodup) :
    sendStatus rulesMode e now bootCount = sendStatusSpecUniqueIds rulesMode e now bootCount := by
  unfold sendStatus sendStatusSpecUniqueIds
  rw [List.dedup_eq_self.mpr h, List.length_map]

set_option maxRecDepth 1000000 in
/-- Witness for C8 at the engine holding `bufWithinReversed`'s single
signal. -/
theorem claim_C8_witness :
    (withinEngine.signals.map (fun s => s.canId)).Nodup ∧
    sendStatus 2 withinEngine 50 3 = sendStatusSpecUniqueIds 2 withinEngine 50 3 :=
  ⟨by decide, claim_C8 2 withinEngine 50 3 (by decide)⟩

/-! ## C10: bounds safety of rule evaluation -/

/-- A condition whose signal index is past the signal table evaluates to
false without touching the table (the `cond.signalIdx >= signals_.size()`
guard). -/
theorem evaluateCondition_oob (signals : List RuntimeSignal)
    (cond : RuntimeCondition) (now : Nat) (h : signals.length ≤ cond.signalIdx) :
    evaluateCondition signals cond now = (cond, false) := by
  unfold evaluateCondition
  rw [if_pos h]

/-- The mask loop reads only the mask bits below 32 and below the condition
count: two masks agreeing there drive it identically. -/
theorem evalMaskLoop_congr (signals : List RuntimeSignal) (now : Nat) :
    ∀ (fuel c : Nat) (conds : List RuntimeCondition) (mask mask' : Nat),
      (∀ b, c ≤ b → b < conds.length → b < c + fuel →
        mask.testBit b = mask'.testBit b) →
      evalMaskLoop signals mask now fuel c conds =
        evalMaskLoop signals mask' now fuel c conds := by
  intro fuel
  induction fuel with
  | zero => intro c conds mask mask' _; rfl
  | succ n ih =>
    intro c conds mask mask' h
    simp only [evalMaskLoop]
    by_cases hc : c < conds.length
    · rw [if_pos hc, if_pos hc]
      have hb : mask.testBit c = mask'.testBit c := h c le_rfl hc (by omega)
      rw [← hb]
      by_cases ht : mask.testBit c
      · rw [if_pos ht, if_pos ht]
        rcases hEv : evaluateCondition signals (conds.getD c default) now with ⟨cond1, res⟩
        by_cases hr : res
        · subst hr
          simp only
          exact ih (c + 1) (conds.set c cond1) mask mask'
            (fun b hb1 hb2 hb3 =>
              h b (by omega) (by rwa [List.length_set] at hb2) (by omega))
        · simp only [Bool.not_eq_true] at hr
          subst hr
          rfl
      · rw [if_neg ht, if_neg ht]
        exact ih (c + 1) conds mask mask'
          (fun b hb1 hb2 hb3 => h b (by omega) hb2 (by omega))
    · rw [if_neg hc, if_neg hc]

/-- Every index of an executed action slice lies inside the action table
(the `a < actions_.size()` loop bound). -/
theorem executedSlice_lt (start count alen : Nat) :
    ∀ a ∈ executedSlice start count alen, a < alen := by
  intro a ha
  unfold executedSlice at ha
  rw [List.mem_range'_1] at ha
  omega

/-- All action indices collected by the rule loop are inside the action
table. -/
theorem evaluateRulesAux_ex_lt (signals : List RuntimeSignal) (alen now : Nat) :
    ∀ (rules : List RuntimeRule) (conds : List RuntimeCondition),
      ∀ a ∈ (evaluateRulesAux signals alen now conds rules).2.2.1, a < alen := by
  intro rules
  induction rules with
  | nil => intro conds a ha; simp [evaluateRulesAux] at ha
  | cons r rest ih =>
    intro conds a ha
    rcases h1 : evalMaskLoop signals r.conditionMask now 32 0 conds with ⟨conds1, allMet⟩
    rcases h2 : ruleGate r now allMet with ⟨r1, fired⟩
    rcases h3 : evaluateRulesAux signals alen now conds1 rest with ⟨conds2, rest2, ex2, k⟩
    simp only [evaluateRulesAux, h1, h2, h3] at ha
    rcases List.mem_append.1 ha with hl | hr
    · by_cases hf : fired
      · rw [if_pos hf] at hl
        exact executedSlice_lt r.actionStartIdx r.actionCount alen a hl
      · rw [if_neg hf] at hl
        cases hl
    · have := ih conds1 a
      rw [h3] at this
      exact this hr

/-- C10: rule evaluation is total and in-bounds for every table state: an
out-of-range signal index makes its condition false, the mask loop ignores
mask bits at or beyond the condition count or bit 32, and every executed
action index is below the action-table length. -/
theorem claim_C10 :
    (∀ (signals : List RuntimeSignal) (cond : RuntimeCondition) (now : Nat),
        signals.length ≤ cond.signalIdx →
        evaluateCondition signals cond now = (cond, false)) ∧
    (∀ (signals : List RuntimeSignal) (now : Nat) (conds : List RuntimeCondition)
        (mask mask' : Nat),
        (∀ c, c < 32 → c < conds.length → mask.testBit c = mask'.testBit c) →
        evalMaskLoop signals mask now 32 0 conds =
          evalMaskLoop signals mask' now 32 0 conds) ∧
    (∀ (e : EngineState) (now : Nat), ∀ a ∈ (evaluateRules e now).2,
        a < e.actions.length) := by
  refine ⟨fun signals cond now h => evaluateCondition_oob signals cond now h,
          fun signals now conds mask mask' h =>
            evalMaskLoop_congr signals now 32 0 conds mask mask'
              (fun b _ hb2 hb3 => h b (by omega) hb2),
          fun e now a ha => ?_⟩
  unfold evaluateRules at ha
  rcases h3 : evaluateRulesAux e.signals e.actions.length now e.conditions e.rules
    with ⟨conds, rules, ex, k⟩
  rw [h3] at ha
  simp only at ha
  have := evaluateRulesAux_ex_lt e.signals e.actions.length now e.rules e.conditions a
  rw [h3] at this
  exact this ha

/-- Witness for C10: a condition against an empty signal table is false;
masks 1 and 33 agree below the single-condition count and drive the loop
identically; the vacuous rule of `c10Engine` fires and its clipped slice
stays inside the one-entry action table. -/
theorem claim_C10_witness :
    evaluateCondition [] c10Cond 7 = (c10Cond, false) ∧
    evalMaskLoop [] 1 7 32 0 [c10Cond] = evalMaskLoop [] 33 7 32 0 [c10Cond] ∧
    ((evaluateRules c10Engine 5).2 = [0] ∧ 0 < c10Engine.actions.length) :=
  ⟨claim_C10.1 [] c10Cond 7 (by decide),
   claim_C10.2.1 [] 7 [c10Cond] 1 33 (by decide),
   by decide,
   claim_C10.2.2 c10Engine 5 0 (by decide)⟩

/-! ## C9: the debug dirty-queue invariant -/

theorem getD_set_ne {α : Type} (l : List α) (i j : Nat) (a d : α) (h : i ≠ j) :
    (l.set i a).getD j d = l.getD j d := by
  simp [List.getD_eq_getElem?_getD, List.getElem?_set_ne h]

theorem getD_set_self {α : Type} (l : List α) (i : Nat) (a d : α) (h : i < l.length) :
    (l.set i a).getD i d = a := by
  simp [List.getD_eq_getElem?_getD, List.getElem?_set_eq h]

theorem getD_of_get?_some {α : Type} (l : List α) (n : Nat) (a d : α)
    (h : l.get? n = some a) : l.getD n d = a := by
  rw [List.get?_eq_getElem?] at h
  simp [List.getD_eq_getElem?_getD, h]

/-- The invariant only reads the four debug fields: any state agreeing with
`e` on them inherits it. -/
theorem DebugInv_of_fields {e f : EngineState}
    (hq : f.debugDirtyQueue = e.debugDirtyQueue)
    (hh : f.debugQueueHead = e.debugQueueHead)
    (hf : f.debugDirtyFlags = e.debugDirtyFlags)
    (hs : f.debugSignals = e.debugSignals)
    (h : DebugInv e) : DebugInv f := by
  unfold DebugInv pendingQueue at h ⊢
  rw [hq, hh, hf, hs]
  exact h

/-- The debug fields survive `loadRuleset` in every branch. -/
theorem loadRuleset_DebugInv (e : EngineState) (data : List Nat)
    (h : DebugInv e) : DebugInv (loadRuleset e data).1 := by
  unfold loadRuleset
  cases parseRules data with
  | error _ => exact h
  | ok t =>
    dsimp only
    cases t.actions.find? (fun a => !(e.handlers.contains a.capabilityId)) with
    | some a => exact DebugInv_of_fields rfl rfl rfl rfl h
    | none => exact DebugInv_of_fields rfl rfl rfl rfl h

theorem clearRuleset_DebugInv (e : EngineState) (h : DebugInv e) :
    DebugInv (clearRuleset e) := h

theorem registerCapability_DebugInv (e : EngineState) (id : List Nat)
    (h : DebugInv e) : DebugInv (registerCapability e id) := h

theorem setDebugMode_DebugInv (e : EngineState) (b : Bool) (h : DebugInv e) :
    DebugInv (setDebugMode e b) := h

theorem evaluateRules_DebugInv (e : EngineState) (now : Nat) (h : DebugInv e) :
    DebugInv (evaluateRules e now).1 := by
  unfold evaluateRules
  rcases evaluateRulesAux e.signals e.actions.length now e.conditions e.rules
    with ⟨c, r, x, k⟩
  exact h

theorem loadDebugSignals_DebugInv (e : EngineState) (defs : List DebugSignalDef) :
    DebugInv (loadDebugSignals e defs) := by
  refine ⟨by simp [loadDebugSignals], by simp [loadDebugSignals], ?_, ?_, ?_, ?_⟩
  · simp [pendingQueue, loadDebugSignals]
  · intro idx hidx
    simp [pendingQueue, loadDebugSignals] at hidx
  · intro idx hidx
    simp [loadDebugSignals] at hidx
  · simp [loadDebugSignals]

theorem clearDebugSignals_DebugInv (e : EngineState) :
    DebugInv (clearDebugSignals e) := by
  refine ⟨by simp [clearDebugSignals], by simp [clearDebugSignals], ?_, ?_, ?_, ?_⟩
  · simp [pendingQueue, clearDebugSignals]
  · intro idx hidx
    simp [pendingQueue, clearDebugSignals] at hidx
  · intro idx hidx
    simp [clearDebugSignals] at hidx
  · simp [clearDebugSignals]

/-- One debug-loop step preserves the dirty-queue invariant: a push happens
only for an in-range index, with a clear flag and a queue below 64. -/
theorem debugUpdateOne_DebugInv (now : Nat) (data : List Nat) (e : EngineState)
    (i : Nat) (h : DebugInv e) : DebugInv (debugUpdateOne now data e i) := by
  obtain ⟨h1, h2, h3, h4, h5, h6⟩ := h
  unfold debugUpdateOne
  cases hg : e.debugSignals.get? i with
  | none => exact ⟨h1, h2, h3, h4, h5, h6⟩
  | some sig =>
    have hi : i < e.debugSignals.length := by
      rw [List.get?_eq_getElem?] at hg
      exact (List.getElem?_eq_some.1 hg).1
    simp only
    split_ifs with hq hflag
    · -- push branch
      have hnotmem : i ∉ pendingQueue e := by
        intro hm
        have := h4 i hm
        rw [hflag.1] at this
        exact Bool.noConfusion this
      have hdrop : (e.debugDirtyQueue ++ [i]).drop e.debugQueueHead =
          pendingQueue e ++ [i] := by
        rw [List.drop_append_eq_append_drop, Nat.sub_eq_zero_of_le h2]
        rfl
      refine ⟨?_, ?_, ?_, ?_, ?_, ?_⟩
      · simp only [List.length_append, List.length_singleton]
        omega
      · simp only [List.length_append, List.length_singleton]
        omega
      · show ((e.debugDirtyQueue ++ [i]).drop e.debugQueueHead).Nodup
        rw [hdrop, List.nodup_append]
        exact ⟨h3, List.nodup_singleton i,
          fun a ha hb => by
            rw [List.mem_singleton] at hb
            subst hb
            exact hnotmem ha⟩
      · show ∀ idx ∈ (e.debugDirtyQueue ++ [i]).drop e.debugQueueHead,
          (e.debugDirtyFlags.set i true).getD idx false = true
        rw [hdrop]
        intro idx hidx
        rcases List.mem_append.1 hidx with hl | hr
        · have hne : idx ≠ i := fun hc => hnotmem (hc ▸ hl)
          rw [getD_set_ne _ _ _ _ _ (fun hc => hne hc.symm)]
          exact h4 idx hl
        · rw [List.mem_singleton] at hr
          subst hr
          exact getD_set_self _ _ _ _ (h6 ▸ hi)
      · intro idx hidx
        rw [List.length_set]
        rcases List.mem_append.1 hidx with hl | hr
        · exact h5 idx hl
        · rw [List.mem_singleton] at hr
          subst hr
          exact hi
      · simp only [List.length_set]
        exact h6
    · refine ⟨h1, h2, h3, h4, ?_, ?_⟩
      · intro idx hidx
        rw [List.length_set]
        exact h5 idx hidx
      · simp only [List.length_set]
        exact h6
    · refine ⟨h1, h2, h3, h4, ?_, ?_⟩
      · intro idx hidx
        rw [List.length_set]
        exact h5 idx hidx
      · simp only [List.length_set]
        exact h6

theorem foldl_debugUpdateOne_DebugInv (now : Nat) (data : List Nat) :
    ∀ (L : List Nat) (e : EngineState), DebugInv e →
      DebugInv (L.foldl (debugUpdateOne now data) e) := by
  intro L
  induction L with
  | nil => intro e h; exact h
  | cons j L' ih =>
    intro e h
    rw [List.foldl_cons]
    exact ih _ (debugUpdateOne_DebugInv now data e j h)

theorem processCanFrame_DebugInv (e : EngineState) (frame : CanFrame) (now : Nat)
    (h : DebugInv e) : DebugInv (processCanFrame e frame now) := by
  have h1 : DebugInv { e with signals := updateRulesetSignals e.signals frame now } :=
    DebugInv_of_fields rfl rfl rfl rfl h
  unfold processCanFrame
  dsimp only
  by_cases hd : e.debugMode = true
  · rw [if_pos hd]
    exact foldl_debugUpdateOne_DebugInv now frame.data _ _ h1
  · rw [if_neg hd]
    exact h1

theorem popDirtyDebugSignal_DebugInv (e : EngineState) (h : DebugInv e) :
    DebugInv (popDirtyDebugSignal e).1 := by
  obtain ⟨h1, h2, h3, h4, h5, h6⟩ := h
  unfold popDirtyDebugSignal
  by_cases hle : e.debugDirtyQueue.length ≤ e.debugQueueHead
  · rw [if_pos hle]
    by_cases hh : 0 < e.debugQueueHead
    · rw [if_pos hh]
      refine ⟨by simp, by simp, ?_, ?_, ?_, h6⟩
      · simp [pendingQueue]
      · intro idx hidx
        simp [pendingQueue] at hidx
      · intro idx hidx
        simp at hidx
    · rw [if_neg hh]
      exact ⟨h1, h2, h3, h4, h5, h6⟩
  · rw [if_neg hle]
    dsimp only
    have hlt : e.debugQueueHead < e.debugDirtyQueue.length := by omega
    have hpend : pendingQueue e =
        e.debugDirtyQueue[e.debugQueueHead] :: e.debugDirtyQueue.drop (e.debugQueueHead + 1) :=
      List.drop_eq_getElem_cons hlt
    have htail : (e.debugDirtyQueue.drop (e.debugQueueHead + 1)).Nodup := by
      have : pendingQueue e = _ := hpend
      have hn := h3
      rw [hpend, List.nodup_cons] at hn
      exact hn.2
    have htailmem : ∀ idx ∈ e.debugDirtyQueue.drop (e.debugQueueHead + 1),
        idx ∈ pendingQueue e := by
      intro idx hidx
      rw [hpend]
      exact List.mem_cons_of_mem _ hidx
    cases hg : e.debugSignals.get? (e.debugDirtyQueue.getD e.debugQueueHead 0) with
    | none =>
      refine ⟨h1, hlt, htail, ?_, h5, h6⟩
      intro idx hidx
      exact h4 idx (htailmem idx hidx)
    | some sig =>
      have hielt : e.debugDirtyQueue.getD e.debugQueueHead 0 =
          e.debugDirtyQueue[e.debugQueueHead] :=
        List.getD_eq_getElem _ _ hlt
      have hheadnot : e.debugDirtyQueue[e.debugQueueHead] ∉
          e.debugDirtyQueue.drop (e.debugQueueHead + 1) := by
        have hn := h3
        rw [hpend, List.nodup_cons] at hn
        exact hn.1
      refine ⟨h1, hlt, htail, ?_, ?_, ?_⟩
      · intro idx hidx
        have hne : idx ≠ e.debugDirtyQueue.getD e.debugQueueHead 0 := by
          rw [hielt]
          intro hc
          exact hheadnot (hc ▸ hidx)
        rw [getD_set_ne _ _ _ _ _ (fun hc => hne hc.symm)]
        exact h4 idx (htailmem idx hidx)
      · intro idx hidx
        rw [List.length_set]
        exact h5 idx hidx
      · simp only [List.length_set]
        exact h6

/-- Every reachable engine state satisfies the dirty-queue invariant. -/
theorem reach_DebugInv {e : EngineState} (h : Reach e) : DebugInv e := by
  induction h with
  | init =>
    refine ⟨by decide, by decide, by decide, ?_, ?_, by decide⟩
    · intro idx hidx
      simp [pendingQueue, engineInit] at hidx
    · intro idx hidx
      simp [engineInit] at hidx
  | loadRuleset data _ ih => exact loadRuleset_DebugInv _ data ih
  | clearRuleset _ ih => exact clearRuleset_DebugInv _ ih
  | registerCapability id _ ih => exact registerCapability_DebugInv _ id ih
  | processCanFrame frame now _ ih => exact processCanFrame_DebugInv _ frame now ih
  | evaluateRules now _ ih => exact evaluateRules_DebugInv _ now ih
  | loadDebugSignals defs _ ih => exact loadDebugSignals_DebugInv _ defs
  | clearDebugSignals _ ih => exact clearDebugSignals_DebugInv _
  | setDebugMode b _ ih => exact setDebugMode_DebugInv _ b ih
  | popDirtyDebugSignal _ ih => exact popDirtyDebugSignal_DebugInv _ ih

/-- One debug-loop step only writes the overlay entry of the index it
processes. -/
theorem debugUpdateOne_getD_ne (now : Nat) (data : List Nat) (e : EngineState)
    (j i : Nat) (h : j ≠ i) :
    (debugUpdateOne now data e j).debugSignals.getD i default =
      e.debugSignals.getD i default := by
  unfold debugUpdateOne
  cases e.debugSignals.get? j with
  | none => rfl
  | some sig =>
    simp only
    split_ifs <;> exact getD_set_ne _ j i _ _ h

theorem foldl_getD_not_mem (now : Nat) (data : List Nat) :
    ∀ (L : List Nat) (e : EngineState) (i : Nat), i ∉ L →
      ((L.foldl (debugUpdateOne now data) e).debugSignals.getD i default) =
        e.debugSignals.getD i default := by
  intro L
  induction L with
  | nil => intro e i _; rfl
  | cons j L' ih =>
    intro e i hmem
    rw [List.mem_cons, not_or] at hmem
    rw [List.foldl_cons, ih _ i hmem.2]
    exact debugUpdateOne_getD_ne now data e j i (fun hc => hmem.1 hc.symm)

/-- One debug-loop step never touches a signal's last-reported value. -/
theorem debugUpdateOne_reported (now : Nat) (data : List Nat) (e : EngineState)
    (j i : Nat) :
    debugReportedAt (debugUpdateOne now data e j) i = debugReportedAt e i := by
  by_cases hji : j = i
  · subst hji
    unfold debugReportedAt debugUpdateOne
    cases hg : e.debugSignals.get? j with
    | none => rfl
    | some sig =>
      have hj : j < e.debugSignals.length := by
        rw [List.get?_eq_getElem?] at hg
        exact (List.getElem?_eq_some.1 hg).1
      have hgd : e.debugSignals.getD j default = sig := getD_of_get?_some _ _ _ _ hg
      simp only
      split_ifs <;> rw [getD_set_self _ _ _ _ hj, hgd]
  · unfold debugReportedAt
    rw [debugUpdateOne_getD_ne now data e j i hji]

theorem foldl_reported (now : Nat) (data : List Nat) :
    ∀ (L : List Nat) (e : EngineState) (i : Nat),
      debugReportedAt (L.foldl (debugUpdateOne now data) e) i =
        debugReportedAt e i := by
  intro L
  induction L with
  | nil => intro e i; rfl
  | cons j L' ih =>
    intro e i
    rw [List.foldl_cons, ih _ i, debugUpdateOne_reported]

/-- Pending-membership after one debug-loop step: either the index was
already pending, or it is the processed index and its just-decoded value
moved more than 0.01 from the last-reported one. -/
theorem debugUpdateOne_pending_mem (now : Nat) (data : List Nat) (e : EngineState)
    (j idx : Nat) (h : idx ∈ pendingQueue (debugUpdateOne now data e j)) :
    idx ∈ pendingQueue e ∨
      (idx = j ∧ (1 : ℚ) / 100 <
        |debugValueAt (debugUpdateOne now data e j) j -
          debugReportedAt (debugUpdateOne now data e j) j|) := by
  unfold debugUpdateOne at h ⊢
  revert h
  cases hg : e.debugSignals.get? j with
  | none => intro h; exact Or.inl h
  | some sig =>
    intro h
    have hj : j < e.debugSignals.length := by
      rw [List.get?_eq_getElem?] at hg
      exact (List.getElem?_eq_some.1 hg).1
    dsimp only at h ⊢
    split_ifs at h ⊢ with hq hflag
    · -- push branch
      unfold pendingQueue at h
      dsimp only at h
      rw [List.drop_append_eq_append_drop] at h
      rcases List.mem_append.1 h with hl | hr
      · exact Or.inl hl
      · have : idx ∈ [j] := List.mem_of_mem_drop hr
        rw [List.mem_singleton] at this
        subst this
        refine Or.inr ⟨rfl, ?_⟩
        unfold debugValueAt debugReportedAt
        dsimp only
        rw [getD_set_self _ _ _ _ hj]
        exact hq
    · exact Or.inl h
    · exact Or.inl h

/-- Over a pass of the debug loop on pairwise-distinct indices, every newly
pending index ends the frame with a value more than 0.01 away from its
last-reported one. -/
theorem foldl_new_pending (now : Nat) (data : List Nat) :
    ∀ (L : List Nat), L.Nodup → ∀ (e : EngineState) (idx : Nat),
      idx ∈ pendingQueue (L.foldl (debugUpdateOne now data) e) →
      idx ∉ pendingQueue e →
      (1 : ℚ) / 100 <
        |debugValueAt (L.foldl (debugUpdateOne now data) e) idx -
          debugReportedAt (L.foldl (debugUpdateOne now data) e) idx| := by
  intro L
  induction L with
  | nil => intro _ e idx hin hout; exact absurd hin hout
  | cons j L' ih =>
    intro hnd e idx hin hout
    obtain ⟨hjL, hnd'⟩ := List.nodup_cons.1 hnd
    rw [List.foldl_cons] at hin ⊢
    by_cases hm : idx ∈ pendingQueue (debugUpdateOne now data e j)
    · rcases debugUpdateOne_pending_mem now data e j idx hm with hold | ⟨heq, hq⟩
      · exact absurd hold hout
      · subst heq
        unfold debugValueAt debugReportedAt at hq ⊢
        rw [foldl_getD_not_mem now data L' _ idx hjL]
        exact hq
    · exact ih hnd' (debugUpdateOne now data e j) idx hin hm

/-- The per-CAN-id index buckets repeat no index. -/
theorem debugIndicesFor_nodup (signals : List RuntimeSignal) (id : Nat) :
    (debugIndicesFor signals id).Nodup :=
  (List.nodup_range signals.length).filter _

/-- CAN-frame processing never touches the last-reported values. -/
theorem processCanFrame_reported (e : EngineState) (frame : CanFrame)
    (now idx : Nat) :
    debugReportedAt (processCanFrame e frame now) idx = debugReportedAt e idx := by
  unfold processCanFrame
  dsimp only
  by_cases hd : e.debugMode = true
  · rw [if_pos hd, foldl_reported]
    rfl
  · rw [if_neg hd]
    rfl

/-- An index newly pending after a CAN frame ends the frame with its value
more than 0.01 from the last-reported one. -/
theorem processCanFrame_new_pending (e : EngineState) (frame : CanFrame)
    (now idx : Nat) (hin : idx ∈ pendingQueue (processCanFrame e frame now))
    (hout : idx ∉ pendingQueue e) :
    (1 : ℚ) / 100 <
      |debugValueAt (processCanFrame e frame now) idx -
        debugReportedAt (processCanFrame e frame now) idx| := by
  unfold processCanFrame at hin ⊢
  dsimp only at hin ⊢
  by_cases hd : e.debugMode = true
  · rw [if_pos hd] at hin ⊢
    exact foldl_new_pending now frame.data _ (debugIndicesFor_nodup _ _) _ idx hin hout
  · rw [if_neg hd] at hin
    exact absurd hin hout

/-- C9: at every reachable state the dirty queue holds at most 64 entries
and each overlay index at most once; CAN-frame processing leaves the
last-reported values alone and enqueues an index only when its newly
decoded value differs from the last-reported one by more than 0.01; and a
successful pop removes exactly the head entry and records the popped
signal's value as last reported. -/
theorem claim_C9 (e : EngineState) (he : Reach e) :
    (e.debugDirtyQueue.length ≤ 64 ∧ (pendingQueue e).length ≤ 64 ∧
      (pendingQueue e).Nodup) ∧
    (∀ (frame : CanFrame) (now idx : Nat),
        debugReportedAt (processCanFrame e frame now) idx = debugReportedAt e idx) ∧
    (∀ (frame : CanFrame) (now idx : Nat),
        idx ∈ pendingQueue (processCanFrame e frame now) →
        idx ∉ pendingQueue e →
        (1 : ℚ) / 100 <
          |debugValueAt (processCanFrame e frame now) idx -
            debugReportedAt (processCanFrame e frame now) idx|) ∧
    (pendingQueue e ≠ [] →
      (popDirtyDebugSignal e).2 =
        some (e.debugSignals.getD ((pendingQueue e).headD 0) default) ∧
      pendingQueue (popDirtyDebugSignal e).1 = (pendingQueue e).tail ∧
      debugReportedAt (popDirtyDebugSignal e).1 ((pendingQueue e).headD 0) =
        debugValueAt e ((pendingQueue e).headD 0)) := by
  obtain ⟨h1, h2, h3, h4, h5, h6⟩ := reach_DebugInv he
  refine ⟨⟨h1, ?_, h3⟩,
          fun frame now idx => processCanFrame_reported e frame now idx,
          fun frame now idx hin hout =>
            processCanFrame_new_pending e frame now idx hin hout,
          fun hne => ?_⟩
  · unfold pendingQueue
    rw [List.length_drop]
    omega
  · have hlt : e.debugQueueHead < e.debugDirtyQueue.length := by
      by_contra hc
      exact hne (List.drop_eq_nil_iff.mpr (by omega))
    have hpend : pendingQueue e =
        e.debugDirtyQueue[e.debugQueueHead] ::
          e.debugDirtyQueue.drop (e.debugQueueHead + 1) :=
      List.drop_eq_getElem_cons hlt
    have hhead : (pendingQueue e).headD 0 = e.debugDirtyQueue[e.debugQueueHead] := by
      rw [hpend]
      rfl
    have hgd : e.debugDirtyQueue.getD e.debugQueueHead 0 =
        e.debugDirtyQueue[e.debugQueueHead] :=
      List.getD_eq_getElem _ _ hlt
    have hidxlt : e.debugDirtyQueue[e.debugQueueHead] < e.debugSignals.length :=
      h5 _ (List.getElem_mem hlt)
    have hsig : e.debugSignals.get? (e.debugDirtyQueue.getD e.debugQueueHead 0) =
        some (e.debugSignals.getD (e.debugDirtyQueue.getD e.debugQueueHead 0) default) := by
      rw [hgd, List.get?_eq_getElem?, List.getElem?_eq_getElem hidxlt,
        List.getD_eq_getElem _ _ hidxlt]
    unfold popDirtyDebugSignal
    rw [if_neg (by omega : ¬ e.debugDirtyQueue.length ≤ e.debugQueueHead)]
    dsimp only
    rw [hsig]
    dsimp only
    refine ⟨?_, ?_, ?_⟩
    · rw [hhead, ← hgd]
    · show e.debugDirtyQueue.drop (e.debugQueueHead + 1) = (pendingQueue e).tail
      rw [hpend]
      rfl
    · rw [hhead, ← hgd]
      unfold debugReportedAt debugValueAt
      dsimp only
      rw [getD_set_self _ _ _ _ (by rw [hgd]; exact hidxlt)]

set_option maxRecDepth 1000000 in
/-- Witness for C9 at the reachable state `c9State` — a fresh engine
watching one overlay signal, after a frame that moved it off the sentinel:
index 0 is newly pending with a change above 0.01, and popping returns it,
drops it from the pending queue and records its value as reported. -/
theorem claim_C9_witness :
    ((c9State.debugDirtyQueue.length ≤ 64 ∧ (pendingQueue c9State).length ≤ 64 ∧
        (pendingQueue c9State).Nodup) ∧
      (1 : ℚ) / 100 < |debugValueAt c9State 0 - debugReportedAt c9State 0|) ∧
    ((popDirtyDebugSignal c9State).2 =
        some (c9State.debugSignals.getD ((pendingQueue c9State).headD 0) default) ∧
      pendingQueue (popDirtyDebugSignal c9State).1 = (pendingQueue c9State).tail ∧
      debugReportedAt (popDirtyDebugSignal c9State).1 ((pendingQueue c9State).headD 0) =
        debugValueAt c9State ((pendingQueue c9State).headD 0)) := by
  have hbase : Reach c9Base := Reach.loadDebugSignals [defW] Reach.init
  have hstate : Reach c9State := Reach.processCanFrame frameW 5 hbase
  have h1 := claim_C9 c9State hstate
  have h2 := claim_C9 c9Base hbase
  exact ⟨⟨h1.1, h2.2.2.1 frameW 5 0 (by decide) (by decide)⟩, h1.2.2.2 (by decide)⟩

end W4RP
